import Mathlib

/-!
Shallow embedding of `shelved_cache/persistent_cache.py`.

The source file defines two pieces:

* `DelMixin` — a mixin whose `__delitem__` first performs the wrapped cache's
  raw `__delitem__` and then calls a registered `delete_callback` with the key.
* `PersistentCache` — a facade over a `cachetools.Cache` subclass.  When a
  truthy filename is supplied the wrapped cache is built with `DelMixin` mixed
  in (so every removal, explicit or eviction, fires `delete_callback`), and a
  `shelve` store is opened lazily on first use; every `__setitem__` writes the
  record `(key, value)` under `str(hash(key))` and syncs, every observed
  deletion removes the corresponding store record, and the lazy open replays
  every persisted record into the in-memory cache.

Modelling conventions:

* Keys and values are natural numbers (Python non-negative `int`s).  CPython's
  integer hash is `n % (2^61 - 1)`, which we model exactly; `str(...)` is an
  injective rendering of the hash, so store keys are modelled by the hash
  values themselves.
* The wrapped `cachetools` cache is an external collaborator (not part of this
  repository).  Modelled from the spec: an opaque bounded mapping, unit-sized
  values, which on `set` of a fresh key evicts the oldest entries through its
  lowest-level single-key removal primitive while the cache is full, and
  raises `ValueError` when the capacity is zero.  Entries are kept as an
  insertion-ordered association list, oldest first.
* The `shelve` store is a string-keyed persistent dictionary; while open, its
  contents coincide with the on-disk contents because the code syncs after
  every write.  Iteration during the lazy load is over a snapshot of the
  store's records taken at open time.
* Stateful Python code becomes explicit state passing: each operation returns
  `Except PyErr α × PCState`, where the returned state records the mutations
  already performed when an exception propagates (Python semantics).
* `__del__` (best-effort teardown) is not modelled; the spec marks it as
  "just for show".
-/

namespace ShelvedCache

/-- Cache keys, modelled as non-negative Python integers. -/
abbrev Key := Nat

/-- Cached values. -/
abbrev Val := Nat

/-- Store keys: `str(hash(key))`; `str` is injective on the hash values, so a
store key is modelled by the hash value itself. -/
abbrev StoreKey := Nat

/-- Modulus of CPython's integer hash: `hash(n) = n % (2^61 - 1)` for `n ≥ 0`. -/
def pyHashMod : Nat := 2 ^ 61 - 1

/-- CPython `hash` of a non-negative integer. -/
def pyHash (n : Nat) : Nat := n % pyHashMod

/-- `PersistentCache.hash_key`: `str(hash(key))` (see `StoreKey`). -/
def hash_key (key : Key) : StoreKey := pyHash key

/-- Errors the modelled Python code can raise. -/
inductive PyErr
  | keyError
  | valueError
  | typeError
deriving DecidableEq, Repr

/-- Contents of the shelve store: an association list from store keys to the
persisted records `(original key, value)`.  Python dict semantics: keys are
unique, insertion order is kept, updates happen in place. -/
abbrev Store := List (StoreKey × Key × Val)

/-- `d[hk]` lookup in the store. -/
def storeGet : Store → StoreKey → Option (Key × Val)
  | [], _ => none
  | e :: rest, hk => if e.1 = hk then some e.2 else storeGet rest hk

/-- `d[hk] = kv`: update in place if present, else append. -/
def storeSet : Store → StoreKey → Key × Val → Store
  | [], hk, kv => [(hk, kv)]
  | e :: rest, hk, kv => if e.1 = hk then (hk, kv) :: rest else e :: storeSet rest hk kv

/-- `del d[hk]` with the key known present: remove the first matching record. -/
def storeDel : Store → StoreKey → Store
  | [], _ => []
  | e :: rest, hk => if e.1 = hk then rest else e :: storeDel rest hk

/-- The store keys currently present. -/
def storeKeys (d : Store) : List StoreKey := d.map (fun e => e.1)

/-- Lookup in the in-memory cache's entry list. -/
def lookupEntry : List (Key × Val) → Key → Option Val
  | [], _ => none
  | kv :: rest, k => if kv.1 = k then some kv.2 else lookupEntry rest k

/-- Raw removal of a key from the entry list (first occurrence). -/
def removeEntry : List (Key × Val) → Key → List (Key × Val)
  | [], _ => []
  | kv :: rest, k => if kv.1 = k then rest else kv :: removeEntry rest k

/-- In-place update of the value stored under a present key. -/
def replaceEntry : List (Key × Val) → Key → Val → List (Key × Val)
  | [], _, _ => []
  | kv :: rest, k, v => if kv.1 = k then (k, v) :: rest else kv :: replaceEntry rest k v

/-- The keys of the in-memory cache. -/
def entryKeys (es : List (Key × Val)) : List Key := es.map (fun kv => kv.1)

/-- Python truthiness of the `filename` argument (`None` and `""` are falsy). -/
def filenameTruthy : Option String → Bool
  | none => false
  | some fname => !fname.isEmpty

/-- State of one `PersistentCache` instance together with its backing file.

* `entries`/`maxsize`: the wrapped `cachetools` cache (`self.wrapped`),
  insertion-ordered, oldest first.
* `filename`: the constructor argument (immutable).
* `opened`: whether `self.persistent_dict` is not `None`.
* `disk`: the contents of the backing file; while `opened` these are also the
  live contents of `self.persistent_dict` (the code syncs after every write).
-/
structure PCState where
  entries : List (Key × Val)
  maxsize : Nat
  filename : Option String
  opened : Bool
  disk : Store
deriving Repr

/-- `PersistentCache.__init__`: fresh in-memory cache, store not yet opened,
over a backing file currently holding `disk`. -/
def mkPC (filename : Option String) (maxsize : Nat) (disk : Store) : PCState :=
  ⟨[], maxsize, filename, false, disk⟩

/-- `PersistentCache.delete_callback`.  The code first calls
`initialize_if_not_initialized`; whenever the callback is installed and
reached (public delete via attribute forwarding, eviction inside a public
`set`, or eviction during the lazy load) the store has already been opened in
the same operation, so that call's guard is false and it is a no-op; we inline
it as such.  Then `del self.persistent_dict[self.hash_key(key)]`, a `KeyError`
when the hashed key is absent, and a `TypeError` in the unreachable case where
the store is closed (`del None[...]`). -/
def delete_callback (s : PCState) (key : Key) : Except PyErr Unit × PCState :=
  if s.opened then
    let hkey := hash_key key
    match storeGet s.disk hkey with
    | some _ => (Except.ok (), { s with disk := storeDel s.disk hkey })
    | none => (Except.error PyErr.keyError, s)
  else (Except.error PyErr.typeError, s)

/-- `DelMixin.__delitem__` layered over the wrapped cache's raw delete:
`super().__delitem__(key)` (a `KeyError` if the key is absent, and then the
callback does not fire), followed by `self.delete_callback(key)`.  When the
filename was falsy at construction the wrapped cache was built without the
mixin, so only the raw delete happens. -/
def wrappedDelItem (s : PCState) (key : Key) : Except PyErr Unit × PCState :=
  match lookupEntry s.entries key with
  | none => (Except.error PyErr.keyError, s)
  | some _ =>
    let s1 := { s with entries := removeEntry s.entries key }
    if filenameTruthy s.filename then delete_callback s1 key
    else (Except.ok (), s1)

/-- `popitem` of the wrapped cache: remove the oldest entry through the
single-key removal primitive (hence through `DelMixin.__delitem__`); a
`KeyError` on an empty cache. -/
def popOldest (s : PCState) : Except PyErr Unit × PCState :=
  match s.entries with
  | [] => (Except.error PyErr.keyError, s)
  | kv :: _ => wrappedDelItem s kv.1

/-- The wrapped cache's eviction loop, unrolled to `n` `popitem` calls
(`__setitem__` runs it while the cache is over capacity, so `n` is the number
of entries that must go). -/
def evictN (s : PCState) : Nat → Except PyErr Unit × PCState
  | 0 => (Except.ok (), s)
  | n + 1 =>
    match popOldest s with
    | (Except.error e, s1) => (Except.error e, s1)
    | (Except.ok _, s1) => evictN s1 n

/-- The wrapped cache's `__setitem__` (with `DelMixin` on top when hooked):
with unit-sized values, raise `ValueError` when the capacity is zero;
otherwise update in place when the key is present, else evict oldest entries
until there is room and append the new entry. -/
def wrappedSetItem (s : PCState) (key : Key) (value : Val) : Except PyErr Unit × PCState :=
  if s.maxsize < 1 then (Except.error PyErr.valueError, s)
  else if (lookupEntry s.entries key).isSome then
    (Except.ok (), { s with entries := replaceEntry s.entries key value })
  else
    match evictN s (s.entries.length + 1 - s.maxsize) with
    | (Except.error e, s1) => (Except.error e, s1)
    | (Except.ok _, s1) => (Except.ok (), { s1 with entries := s1.entries ++ [(key, value)] })

/-- The loop body of the lazy load: `for hk, (k, v) in persistent_dict.items():
self.wrapped[k] = v`, over a snapshot of the records; the insertions go
straight into the wrapped cache, so evictions fire the deletion hook but no
store write happens. -/
def replay (s : PCState) : List (StoreKey × Key × Val) → Except PyErr Unit × PCState
  | [] => (Except.ok (), s)
  | e :: rest =>
    match wrappedSetItem s e.2.1 e.2.2 with
    | (Except.error err, s1) => (Except.error err, s1)
    | (Except.ok _, s1) => replay s1 rest

/-- `PersistentCache.initialize_if_not_initialized`: when the filename is
truthy and the store is not yet opened, open it (`persistent_dict` is assigned
before the loop, so `opened` becomes true even if the replay then raises) and
replay every persisted record into the in-memory cache. -/
def ensureOpened (s : PCState) : Except PyErr Unit × PCState :=
  if filenameTruthy s.filename = true ∧ s.opened = false then
    replay { s with opened := true } s.disk
  else (Except.ok (), s)

/-- `PersistentCache.__setitem__`: lazy init, write into the wrapped cache,
then if the store is open write the record `(key, value)` under
`hash_key key` and sync. -/
def pcSetItem (s : PCState) (key : Key) (value : Val) : Except PyErr Unit × PCState :=
  match ensureOpened s with
  | (Except.error e, s1) => (Except.error e, s1)
  | (Except.ok _, s1) =>
    match wrappedSetItem s1 key value with
    | (Except.error e, s2) => (Except.error e, s2)
    | (Except.ok _, s2) =>
      if s2.opened then
        (Except.ok (), { s2 with disk := storeSet s2.disk (hash_key key) (key, value) })
      else (Except.ok (), s2)

/-- `PersistentCache.__getitem__`: lazy init, then a pure lookup in the
wrapped cache (`cachetools` raises `KeyError` on a missing key). -/
def pcGetItem (s : PCState) (key : Key) : Except PyErr Val × PCState :=
  match ensureOpened s with
  | (Except.error e, s1) => (Except.error e, s1)
  | (Except.ok _, s1) =>
    match lookupEntry s1.entries key with
    | some v => (Except.ok v, s1)
    | none => (Except.error PyErr.keyError, s1)

/-- `PersistentCache.__contains__`: lazy init, then membership in the wrapped
cache. -/
def pcContains (s : PCState) (key : Key) : Except PyErr Bool × PCState :=
  match ensureOpened s with
  | (Except.error e, s1) => (Except.error e, s1)
  | (Except.ok _, s1) => (Except.ok (lookupEntry s1.entries key).isSome, s1)

/-- Deletion through the public surface: `PersistentCache` defines no
`__delitem__`, so a delete reaches the wrapped cache by attribute forwarding
(`__getattr__`, e.g. `pc.pop(k)` or `pc.__delitem__(k)`), which runs the lazy
init and then `DelMixin.__delitem__` on the wrapped cache. -/
def pcDelItem (s : PCState) (key : Key) : Except PyErr Unit × PCState :=
  match ensureOpened s with
  | (Except.error e, s1) => (Except.error e, s1)
  | (Except.ok _, s1) => wrappedDelItem s1 key

/-- `PersistentCache.close`: `if self.persistent_dict is not None:
close(); self.persistent_dict = None`.  The disk contents survive (the code
syncs after every write). -/
def pcClose (s : PCState) : PCState :=
  if s.opened then { s with opened := false } else s

/-- The bare wrapped eviction cache, as constructed when the filename is
falsy: no mixin, no callback, no store.  Modelled from the spec: the external
`cachetools` collaborator. -/
structure BareCache where
  entries : List (Key × Val)
  maxsize : Nat
deriving Repr

/-- The bare cache's `__delitem__`. -/
def bareDelItem (c : BareCache) (key : Key) : Except PyErr Unit × BareCache :=
  match lookupEntry c.entries key with
  | none => (Except.error PyErr.keyError, c)
  | some _ => (Except.ok (), { c with entries := removeEntry c.entries key })

/-- The bare cache's `popitem`. -/
def barePopOldest (c : BareCache) : Except PyErr Unit × BareCache :=
  match c.entries with
  | [] => (Except.error PyErr.keyError, c)
  | kv :: _ => bareDelItem c kv.1

/-- The bare cache's eviction loop. -/
def bareEvictN (c : BareCache) : Nat → Except PyErr Unit × BareCache
  | 0 => (Except.ok (), c)
  | n + 1 =>
    match barePopOldest c with
    | (Except.error e, c1) => (Except.error e, c1)
    | (Except.ok _, c1) => bareEvictN c1 n

/-- The bare cache's `__setitem__`. -/
def bareSetItem (c : BareCache) (key : Key) (value : Val) : Except PyErr Unit × BareCache :=
  if c.maxsize < 1 then (Except.error PyErr.valueError, c)
  else if (lookupEntry c.entries key).isSome then
    (Except.ok (), { c with entries := replaceEntry c.entries key value })
  else
    match bareEvictN c (c.entries.length + 1 - c.maxsize) with
    | (Except.error e, c1) => (Except.error e, c1)
    | (Except.ok _, c1) => (Except.ok (), { c1 with entries := c1.entries ++ [(key, value)] })

/-- The bare cache's `__getitem__`. -/
def bareGetItem (c : BareCache) (key : Key) : Except PyErr Val × BareCache :=
  match lookupEntry c.entries key with
  | some v => (Except.ok v, c)
  | none => (Except.error PyErr.keyError, c)

/-- The bare cache's `__contains__`. -/
def bareContains (c : BareCache) (key : Key) : Except PyErr Bool × BareCache :=
  (Except.ok (lookupEntry c.entries key).isSome, c)

/-- One public operation on the cache surface. -/
inductive Op
  | set (k : Key) (v : Val)
  | del (k : Key)
  | get (k : Key)
  | has (k : Key)
deriving DecidableEq, Repr

/-- The key an operation touches. -/
def Op.key : Op → Key
  | .set k _ => k
  | .del k => k
  | .get k => k
  | .has k => k

/-- Result of one public operation. -/
inductive RetVal
  | unit
  | val (v : Val)
  | bool (b : Bool)
deriving DecidableEq, Repr

/-- Run one public operation on a `PersistentCache`. -/
def stepPC (s : PCState) : Op → Except PyErr RetVal × PCState
  | .set k v =>
    let r := pcSetItem s k v
    (r.1.map fun _ => RetVal.unit, r.2)
  | .del k =>
    let r := pcDelItem s k
    (r.1.map fun _ => RetVal.unit, r.2)
  | .get k =>
    let r := pcGetItem s k
    (r.1.map fun v => RetVal.val v, r.2)
  | .has k =>
    let r := pcContains s k
    (r.1.map fun b => RetVal.bool b, r.2)

/-- Run a sequence of public operations, collecting each operation's result
(or error). -/
def runPC (s : PCState) : List Op → List (Except PyErr RetVal) × PCState
  | [] => ([], s)
  | op :: ops =>
    let r := stepPC s op
    let rest := runPC r.2 ops
    (r.1 :: rest.1, rest.2)

/-- Run one public operation on the bare wrapped cache. -/
def stepBare (c : BareCache) : Op → Except PyErr RetVal × BareCache
  | .set k v =>
    let r := bareSetItem c k v
    (r.1.map fun _ => RetVal.unit, r.2)
  | .del k =>
    let r := bareDelItem c k
    (r.1.map fun _ => RetVal.unit, r.2)
  | .get k =>
    let r := bareGetItem c k
    (r.1.map fun v => RetVal.val v, r.2)
  | .has k =>
    let r := bareContains c k
    (r.1.map fun b => RetVal.bool b, r.2)

/-- Run a sequence of public operations on the bare wrapped cache. -/
def runBare (c : BareCache) : List Op → List (Except PyErr RetVal) × BareCache
  | [] => ([], c)
  | op :: ops =>
    let r := stepBare c op
    let rest := runBare r.2 ops
    (r.1 :: rest.1, rest.2)

/-- The bare cache a `PCState` wraps. -/
def PCState.bare (s : PCState) : BareCache := ⟨s.entries, s.maxsize⟩

/-- The §3 invariant as the claims state it: the set of store keys present in
the backing store is exactly the image of `hash_key` on the in-memory keys. -/
def StoreMirrors (s : PCState) : Prop :=
  ∀ hk, hk ∈ storeKeys s.disk ↔ ∃ k, k ∈ entryKeys s.entries ∧ hash_key k = hk

/-- Exact record-level correspondence between the open store and the
in-memory cache: the store holds precisely the record `(hash_key k, k, v)`
for each in-memory entry `(k, v)`. -/
def ExactMirror (s : PCState) : Prop :=
  ∀ hk k v, (hk, k, v) ∈ s.disk ↔ hk = hash_key k ∧ (k, v) ∈ s.entries

/-- A wellformed backing file, as this program itself writes it: store keys
are unique, each record's store key is the hash of its embedded key, and (for
the run-time invariant) embedded keys are below the hash modulus so that their
hashes cannot collide. -/
def WFDisk (d : Store) : Prop :=
  (storeKeys d).Nodup ∧ ∀ e ∈ d, e.1 = hash_key e.2.1 ∧ e.2.1 < pyHashMod

/-- All keys an operation sequence touches are below the hash modulus (no
hash collisions among them). -/
def OpsSmall (ops : List Op) : Prop := ∀ op ∈ ops, Op.key op < pyHashMod

/-- The lazy initialization already happened (or never will): after any
completed public operation the store is open whenever persistence is
enabled. -/
def Initialized (s : PCState) : Prop :=
  filenameTruthy s.filename = true → s.opened = true

/-- Fields no wrapped-cache-level operation ever changes: the capacity, the
filename and the open flag agree between `s` and `t`. -/
def FrameEq (s t : PCState) : Prop :=
  t.maxsize = s.maxsize ∧ t.filename = s.filename ∧ t.opened = s.opened

/-- All in-memory keys are below the hash modulus (their hashes cannot
collide). -/
def EntriesSmall (s : PCState) : Prop := ∀ kv ∈ s.entries, kv.1 < pyHashMod

/-- All keys embedded in store records are below the hash modulus. -/
def DiskSmall (d : Store) : Prop := ∀ e ∈ d, e.2.1 < pyHashMod

/-- The store holds exactly the mirrored record of each in-memory entry,
plus the still-pending records of the replay snapshot. -/
def MirrorExcept (s : PCState) (pending : List (StoreKey × Key × Val)) : Prop :=
  ∀ hk k v, (hk, k, v) ∈ s.disk ↔
    (hk = hash_key k ∧ (k, v) ∈ s.entries) ∨ (hk, k, v) ∈ pending

/-- Invariant carried through the lazy-load replay loop: persistence is
enabled and the store open, keys are duplicate-free on both sides and in the
pending snapshot, every store record is keyed by the hash of its embedded
key, no pending record's key is already in memory, and the store contents
are the in-memory mirror plus the pending records. -/
def ReplayInv (s : PCState) (pending : List (StoreKey × Key × Val)) : Prop :=
  filenameTruthy s.filename = true ∧ s.opened = true ∧
  (entryKeys s.entries).Nodup ∧ (storeKeys s.disk).Nodup ∧
  (storeKeys pending).Nodup ∧
  (∀ e ∈ s.disk, e.1 = hash_key e.2.1) ∧
  (∀ e ∈ pending, e.2.1 ∉ entryKeys s.entries) ∧
  MirrorExcept s pending

/-- Run-time invariant of a persistence-enabled `PersistentCache` with
positive capacity over a wellformed backing file: all live keys are
collision-free (below the hash modulus), keys are duplicate-free, store
records are keyed consistently, and once the store is open its contents
mirror the in-memory cache exactly (before the first operation the in-memory
cache is empty). -/
def Inv (s : PCState) : Prop :=
  filenameTruthy s.filename = true ∧ 1 ≤ s.maxsize ∧ EntriesSmall s ∧ DiskSmall s.disk ∧
  (∀ e ∈ s.disk, e.1 = hash_key e.2.1) ∧ (storeKeys s.disk).Nodup ∧
  (entryKeys s.entries).Nodup ∧
  (s.opened = true → MirrorExcept s []) ∧ (s.opened = false → s.entries = [])


/-! ### Helper lemmas: entry lists -/

theorem lookupEntry_eq_none {es : List (Key × Val)} {k : Key} :
    lookupEntry es k = none ↔ k ∉ entryKeys es := by
  induction es with
  | nil => simp [lookupEntry, entryKeys]
  | cons kv rest ih =>
    obtain ⟨a, b⟩ := kv
    by_cases h : a = k <;> simp [lookupEntry, entryKeys, h] at ih ⊢
    all_goals tauto

theorem lookupEntry_isSome {es : List (Key × Val)} {k : Key} :
    (lookupEntry es k).isSome = true ↔ k ∈ entryKeys es := by
  rw [Option.isSome_iff_ne_none, ne_eq, lookupEntry_eq_none]
  tauto

theorem mem_of_lookupEntry {es : List (Key × Val)} {k : Key} {v : Val}
    (h : lookupEntry es k = some v) : (k, v) ∈ es := by
  induction es with
  | nil => simp [lookupEntry] at h
  | cons kv rest ih =>
    obtain ⟨a, b⟩ := kv
    by_cases hk : a = k
    · simp only [lookupEntry, if_pos hk] at h
      cases h
      subst hk
      exact List.mem_cons_self _ _
    · simp only [lookupEntry, if_neg hk] at h
      exact List.mem_cons_of_mem _ (ih h)

theorem lookupEntry_of_mem {es : List (Key × Val)} {k : Key} {v : Val}
    (hnd : (entryKeys es).Nodup) (h : (k, v) ∈ es) : lookupEntry es k = some v := by
  induction es with
  | nil => simp at h
  | cons kv rest ih =>
    obtain ⟨a, b⟩ := kv
    simp only [entryKeys, List.map_cons, List.nodup_cons] at hnd
    rcases List.mem_cons.mp h with h | h
    · cases h
      simp [lookupEntry]
    · have hk : a ≠ k := by
        rintro rfl
        exact hnd.1 (List.mem_map.mpr ⟨(a, v), h, rfl⟩)
      simp only [lookupEntry, if_neg hk]
      exact ih hnd.2 h

theorem removeEntry_sublist (es : List (Key × Val)) (k : Key) :
    (removeEntry es k).Sublist es := by
  induction es with
  | nil => simp [removeEntry]
  | cons kv rest ih =>
    by_cases h : kv.1 = k
    · simp [removeEntry, h]
    · simpa [removeEntry, h] using ih

theorem entryKeys_removeEntry_nodup {es : List (Key × Val)} {k : Key}
    (hnd : (entryKeys es).Nodup) : (entryKeys (removeEntry es k)).Nodup := by
  unfold entryKeys at hnd ⊢
  exact ((removeEntry_sublist es k).map _).nodup hnd

theorem mem_removeEntry_iff {es : List (Key × Val)} {k : Key} {e : Key × Val}
    (hnd : (entryKeys es).Nodup) : e ∈ removeEntry es k ↔ e ∈ es ∧ e.1 ≠ k := by
  induction es with
  | nil => simp [removeEntry]
  | cons kv rest ih =>
    obtain ⟨a, b⟩ := kv
    simp only [entryKeys, List.map_cons, List.nodup_cons] at hnd
    have ih := ih hnd.2
    by_cases h : a = k
    · subst h
      have hnotin : ∀ e : Key × Val, e ∈ rest → e.1 ≠ a := by
        rintro e he rfl
        exact hnd.1 (List.mem_map.mpr ⟨e, he, rfl⟩)
      simp only [removeEntry, if_pos rfl, List.mem_cons]
      constructor
      · intro he
        exact ⟨Or.inr he, hnotin e he⟩
      · rintro ⟨rfl | he, hek⟩
        · exact absurd rfl hek
        · exact he
    · simp only [removeEntry, if_neg h, List.mem_cons, ih]
      constructor
      · rintro (rfl | ⟨he, hek⟩)
        · exact ⟨Or.inl rfl, h⟩
        · exact ⟨Or.inr he, hek⟩
      · rintro ⟨rfl | he, hek⟩
        · exact Or.inl rfl
        · exact Or.inr ⟨he, hek⟩

theorem entryKeys_replaceEntry (es : List (Key × Val)) (k : Key) (v : Val) :
    entryKeys (replaceEntry es k v) = entryKeys es := by
  induction es with
  | nil => rfl
  | cons kv rest ih =>
    obtain ⟨a, b⟩ := kv
    by_cases h : a = k
    · subst h
      simp [replaceEntry, entryKeys]
    · simp only [replaceEntry, if_neg h, entryKeys, List.map_cons] at ih ⊢
      rw [ih]

theorem lookupEntry_replaceEntry {es : List (Key × Val)} {k : Key} (v : Val)
    (h : (lookupEntry es k).isSome = true) :
    lookupEntry (replaceEntry es k v) k = some v := by
  induction es with
  | nil => simp [lookupEntry] at h
  | cons kv rest ih =>
    obtain ⟨a, b⟩ := kv
    by_cases hk : a = k
    · subst hk
      simp [replaceEntry, lookupEntry]
    · simp only [lookupEntry, if_neg hk] at h
      simp only [replaceEntry, if_neg hk, lookupEntry, if_neg hk]
      exact ih h

theorem mem_replaceEntry_iff {es : List (Key × Val)} {k : Key} {v : Val} {e : Key × Val}
    (hnd : (entryKeys es).Nodup) (hmem : k ∈ entryKeys es) :
    e ∈ replaceEntry es k v ↔ e = (k, v) ∨ (e ∈ es ∧ e.1 ≠ k) := by
  induction es with
  | nil => simp [entryKeys] at hmem
  | cons kv rest ih =>
    obtain ⟨a, b⟩ := kv
    simp only [entryKeys, List.map_cons, List.nodup_cons] at hnd
    by_cases h : a = k
    · subst h
      have hre : replaceEntry ((a, b) :: rest) a v = (a, v) :: rest := by
        simp [replaceEntry]
      have hnotin : ∀ e : Key × Val, e ∈ rest → e.1 ≠ a := by
        rintro e he rfl
        exact hnd.1 (List.mem_map.mpr ⟨e, he, rfl⟩)
      rw [hre]
      simp only [List.mem_cons]
      constructor
      · rintro (rfl | he)
        · exact Or.inl rfl
        · exact Or.inr ⟨Or.inr he, hnotin e he⟩
      · rintro (rfl | ⟨rfl | he, hek⟩)
        · exact Or.inl rfl
        · exact absurd rfl hek
        · exact Or.inr he
    · have hmem' : k ∈ a :: entryKeys rest := by
        simpa only [entryKeys, List.map_cons] using hmem
      have hmem2 : k ∈ entryKeys rest := by
        rcases List.mem_cons.mp hmem' with h1 | h1
        · exact absurd h1.symm h
        · exact h1
      have hre : replaceEntry ((a, b) :: rest) k v = (a, b) :: replaceEntry rest k v := by
        simp [replaceEntry, h]
      rw [hre]
      simp only [List.mem_cons, ih hnd.2 hmem2]
      constructor
      · rintro (rfl | rfl | ⟨he, hek⟩)
        · exact Or.inr ⟨Or.inl rfl, h⟩
        · exact Or.inl rfl
        · exact Or.inr ⟨Or.inr he, hek⟩
      · rintro (rfl | ⟨rfl | he, hek⟩)
        · exact Or.inr (Or.inl rfl)
        · exact Or.inl rfl
        · exact Or.inr (Or.inr ⟨he, hek⟩)

/-! ### Helper lemmas: the store -/

theorem storeGet_eq_none {d : Store} {hk : StoreKey} :
    storeGet d hk = none ↔ hk ∉ storeKeys d := by
  induction d with
  | nil => simp [storeGet, storeKeys]
  | cons e rest ih =>
    obtain ⟨a, kv⟩ := e
    by_cases h : a = hk <;> simp [storeGet, storeKeys, h] at ih ⊢
    all_goals tauto

theorem storeGet_isSome {d : Store} {hk : StoreKey} :
    (storeGet d hk).isSome = true ↔ hk ∈ storeKeys d := by
  rw [Option.isSome_iff_ne_none, ne_eq, storeGet_eq_none]
  tauto

theorem mem_of_storeGet {d : Store} {hk : StoreKey} {kv : Key × Val}
    (h : storeGet d hk = some kv) : (hk, kv) ∈ d := by
  induction d with
  | nil => simp [storeGet] at h
  | cons e rest ih =>
    obtain ⟨a, kv'⟩ := e
    by_cases ha : a = hk
    · simp only [storeGet, if_pos ha] at h
      cases h
      subst ha
      exact List.mem_cons_self _ _
    · simp only [storeGet, if_neg ha] at h
      exact List.mem_cons_of_mem _ (ih h)

theorem storeGet_of_mem {d : Store} {e : StoreKey × Key × Val}
    (hnd : (storeKeys d).Nodup) (h : e ∈ d) : storeGet d e.1 = some e.2 := by
  induction d with
  | nil => simp at h
  | cons e' rest ih =>
    obtain ⟨a, kv⟩ := e'
    simp only [storeKeys, List.map_cons, List.nodup_cons] at hnd
    rcases List.mem_cons.mp h with h | h
    · subst h
      simp [storeGet]
    · have ha : a ≠ e.1 := by
        intro haa
        exact hnd.1 (haa ▸ (List.mem_map.mpr ⟨e, h, rfl⟩))
      simp only [storeGet, if_neg ha]
      exact ih hnd.2 h

theorem storeDel_sublist (d : Store) (hk : StoreKey) :
    (storeDel d hk).Sublist d := by
  induction d with
  | nil => simp [storeDel]
  | cons e rest ih =>
    by_cases h : e.1 = hk
    · simp [storeDel, h]
    · simpa [storeDel, h] using ih

theorem storeKeys_storeDel_nodup {d : Store} {hk : StoreKey}
    (hnd : (storeKeys d).Nodup) : (storeKeys (storeDel d hk)).Nodup := by
  unfold storeKeys at hnd ⊢
  exact ((storeDel_sublist d hk).map _).nodup hnd

theorem mem_storeDel_iff {d : Store} {hk : StoreKey} {e : StoreKey × Key × Val}
    (hnd : (storeKeys d).Nodup) : e ∈ storeDel d hk ↔ e ∈ d ∧ e.1 ≠ hk := by
  induction d with
  | nil => simp [storeDel]
  | cons e' rest ih =>
    obtain ⟨a, kv⟩ := e'
    simp only [storeKeys, List.map_cons, List.nodup_cons] at hnd
    have ih := ih hnd.2
    by_cases h : a = hk
    · subst h
      have hnotin : ∀ e : StoreKey × Key × Val, e ∈ rest → e.1 ≠ a := by
        rintro e he rfl
        exact hnd.1 (List.mem_map.mpr ⟨e, he, rfl⟩)
      simp only [storeDel, if_pos rfl, List.mem_cons]
      constructor
      · intro he
        exact ⟨Or.inr he, hnotin e he⟩
      · rintro ⟨rfl | he, hek⟩
        · exact absurd rfl hek
        · exact he
    · simp only [storeDel, if_neg h, List.mem_cons, ih]
      constructor
      · rintro (rfl | ⟨he, hek⟩)
        · exact ⟨Or.inl rfl, h⟩
        · exact ⟨Or.inr he, hek⟩
      · rintro ⟨rfl | he, hek⟩
        · exact Or.inl rfl
        · exact Or.inr ⟨he, hek⟩

theorem mem_storeSet_iff {d : Store} {hk : StoreKey} {kv : Key × Val} {e : StoreKey × Key × Val}
    (hnd : (storeKeys d).Nodup) :
    e ∈ storeSet d hk kv ↔ e = (hk, kv) ∨ (e ∈ d ∧ e.1 ≠ hk) := by
  induction d with
  | nil => simp [storeSet]
  | cons e' rest ih =>
    obtain ⟨a, kv'⟩ := e'
    simp only [storeKeys, List.map_cons, List.nodup_cons] at hnd
    by_cases h : a = hk
    · subst h
      have hre : storeSet ((a, kv') :: rest) a kv = (a, kv) :: rest := by
        simp [storeSet]
      have hnotin : ∀ e : StoreKey × Key × Val, e ∈ rest → e.1 ≠ a := by
        rintro e he rfl
        exact hnd.1 (List.mem_map.mpr ⟨e, he, rfl⟩)
      rw [hre]
      simp only [List.mem_cons]
      constructor
      · rintro (rfl | he)
        · exact Or.inl rfl
        · exact Or.inr ⟨Or.inr he, hnotin e he⟩
      · rintro (rfl | ⟨rfl | he, hek⟩)
        · exact Or.inl rfl
        · exact absurd rfl hek
        · exact Or.inr he
    · have hre : storeSet ((a, kv') :: rest) hk kv = (a, kv') :: storeSet rest hk kv := by
        simp [storeSet, h]
      rw [hre]
      simp only [List.mem_cons, ih hnd.2]
      constructor
      · rintro (rfl | rfl | ⟨he, hek⟩)
        · exact Or.inr ⟨Or.inl rfl, h⟩
        · exact Or.inl rfl
        · exact Or.inr ⟨Or.inr he, hek⟩
      · rintro (rfl | ⟨rfl | he, hek⟩)
        · exact Or.inr (Or.inl rfl)
        · exact Or.inl rfl
        · exact Or.inr (Or.inr ⟨he, hek⟩)

theorem storeKeys_storeSet_of_mem {d : Store} {hk : StoreKey} (kv : Key × Val)
    (h : hk ∈ storeKeys d) : storeKeys (storeSet d hk kv) = storeKeys d := by
  induction d with
  | nil => simp [storeKeys] at h
  | cons e rest ih =>
    obtain ⟨a, kv'⟩ := e
    by_cases ha : a = hk
    · subst ha
      simp [storeSet, storeKeys]
    · simp only [storeKeys, List.map_cons, List.mem_cons] at h
      rcases h with h | h
      · exact absurd h.symm ha
      · have hre : storeSet ((a, kv') :: rest) hk kv = (a, kv') :: storeSet rest hk kv := by
          simp [storeSet, ha]
        rw [hre]
        simp only [storeKeys, List.map_cons]
        rw [show List.map (fun e => e.1) (storeSet rest hk kv) = storeKeys (storeSet rest hk kv)
          from rfl, ih h]
        rfl

theorem storeKeys_storeSet_of_notMem {d : Store} {hk : StoreKey} (kv : Key × Val)
    (h : hk ∉ storeKeys d) : storeKeys (storeSet d hk kv) = storeKeys d ++ [hk] := by
  induction d with
  | nil => simp [storeSet, storeKeys]
  | cons e rest ih =>
    obtain ⟨a, kv'⟩ := e
    simp only [storeKeys, List.map_cons, List.mem_cons] at h
    push_neg at h
    have hak : ¬ a = hk := by
      intro hh
      exact h.1 hh.symm
    have hre : storeSet ((a, kv') :: rest) hk kv = (a, kv') :: storeSet rest hk kv := by
      simp [storeSet, hak]
    rw [hre]
    simp only [storeKeys, List.map_cons, List.cons_append]
    rw [show List.map (fun e => e.1) (storeSet rest hk kv) = storeKeys (storeSet rest hk kv)
      from rfl, ih h.2]
    rfl

theorem storeKeys_storeSet_nodup {d : Store} {hk : StoreKey} (kv : Key × Val)
    (hnd : (storeKeys d).Nodup) : (storeKeys (storeSet d hk kv)).Nodup := by
  by_cases h : hk ∈ storeKeys d
  · rw [storeKeys_storeSet_of_mem kv h]
    exact hnd
  · rw [storeKeys_storeSet_of_notMem kv h]
    simpa [List.nodup_append] using ⟨hnd, h⟩

/-! ### Frame lemmas -/

theorem FrameEq.refl (s : PCState) : FrameEq s s := ⟨rfl, rfl, rfl⟩

theorem FrameEq.trans {s t u : PCState} (h1 : FrameEq s t) (h2 : FrameEq t u) :
    FrameEq s u :=
  ⟨h2.1.trans h1.1, h2.2.1.trans h1.2.1, h2.2.2.trans h1.2.2⟩

theorem delete_callback_frame (s : PCState) (key : Key) :
    FrameEq s (delete_callback s key).2 ∧ (delete_callback s key).2.entries = s.entries := by
  simp only [delete_callback]
  split
  · split <;> exact ⟨⟨rfl, rfl, rfl⟩, rfl⟩
  · exact ⟨⟨rfl, rfl, rfl⟩, rfl⟩

theorem wrappedDelItem_frame (s : PCState) (key : Key) :
    FrameEq s (wrappedDelItem s key).2 := by
  unfold wrappedDelItem
  split
  · exact FrameEq.refl s
  · split
    · exact (delete_callback_frame _ _).1
    · exact ⟨rfl, rfl, rfl⟩

theorem popOldest_frame (s : PCState) : FrameEq s (popOldest s).2 := by
  unfold popOldest
  split
  · exact FrameEq.refl s
  · exact wrappedDelItem_frame _ _

theorem evictN_frame (s : PCState) (n : Nat) : FrameEq s (evictN s n).2 := by
  induction n generalizing s with
  | zero => exact FrameEq.refl s
  | succ n ih =>
    unfold evictN
    cases hp : popOldest s with
    | mk r s1 =>
      have hf : FrameEq s s1 := by
        have := popOldest_frame s
        rwa [hp] at this
      cases r with
      | error e => exact hf
      | ok _ => exact hf.trans (ih s1)

theorem wrappedSetItem_frame (s : PCState) (key : Key) (value : Val) :
    FrameEq s (wrappedSetItem s key value).2 := by
  unfold wrappedSetItem
  split
  · exact FrameEq.refl s
  · split
    · exact ⟨rfl, rfl, rfl⟩
    · cases he : evictN s (s.entries.length + 1 - s.maxsize) with
      | mk r s1 =>
        have hf : FrameEq s s1 := by
          have := evictN_frame s (s.entries.length + 1 - s.maxsize)
          rwa [he] at this
        cases r with
        | error e => exact hf
        | ok _ => exact ⟨hf.1, hf.2.1, hf.2.2⟩

theorem replay_frame (s : PCState) (recs : List (StoreKey × Key × Val)) :
    FrameEq s (replay s recs).2 := by
  induction recs generalizing s with
  | nil => exact FrameEq.refl s
  | cons e rest ih =>
    unfold replay
    cases hw : wrappedSetItem s e.2.1 e.2.2 with
    | mk r s1 =>
      have hf : FrameEq s s1 := by
        have := wrappedSetItem_frame s e.2.1 e.2.2
        rwa [hw] at this
      cases r with
      | error err => exact hf
      | ok _ => exact hf.trans (ih s1)

theorem ensureOpened_maxsize (s : PCState) :
    (ensureOpened s).2.maxsize = s.maxsize ∧ (ensureOpened s).2.filename = s.filename := by
  unfold ensureOpened
  split
  · have := replay_frame { s with opened := true } s.disk
    exact ⟨this.1, this.2.1⟩
  · exact ⟨rfl, rfl⟩

theorem ensureOpened_opened {s : PCState} (h : filenameTruthy s.filename = true) :
    (ensureOpened s).2.opened = true := by
  unfold ensureOpened
  split
  · next hcond => exact (replay_frame { s with opened := true } s.disk).2.2
  · next hcond =>
    rcases not_and_or.mp hcond with hc | hc
    · exact absurd h hc
    · simpa using hc

theorem ensureOpened_of_notTruthy {s : PCState} (h : filenameTruthy s.filename = false) :
    ensureOpened s = (Except.ok (), s) := by
  unfold ensureOpened
  rw [if_neg]
  rintro ⟨h1, _⟩
  rw [h] at h1
  exact Bool.noConfusion h1

theorem ensureOpened_of_initialized {s : PCState} (h : Initialized s) :
    ensureOpened s = (Except.ok (), s) := by
  unfold ensureOpened
  rw [if_neg]
  rintro ⟨h1, h2⟩
  rw [h h1] at h2
  exact Bool.noConfusion h2

theorem ensureOpened_initialized (s : PCState) : Initialized (ensureOpened s).2 := by
  intro ht
  rw [(ensureOpened_maxsize s).2] at ht
  exact ensureOpened_opened ht

/-! ### Persistence disabled: simulation by the bare wrapped cache -/

theorem bareDelItem_maxsize (c : BareCache) (key : Key) :
    (bareDelItem c key).2.maxsize = c.maxsize := by
  unfold bareDelItem
  split <;> rfl

theorem barePopOldest_maxsize (c : BareCache) :
    (barePopOldest c).2.maxsize = c.maxsize := by
  unfold barePopOldest
  split
  · rfl
  · exact bareDelItem_maxsize _ _

theorem bareEvictN_maxsize (c : BareCache) (n : Nat) :
    (bareEvictN c n).2.maxsize = c.maxsize := by
  induction n generalizing c with
  | zero => rfl
  | succ n ih =>
    unfold bareEvictN
    cases hp : barePopOldest c with
    | mk r c1 =>
      have hm : c1.maxsize = c.maxsize := by
        have := barePopOldest_maxsize c
        rwa [hp] at this
      cases r with
      | error e => exact hm
      | ok _ => exact (ih c1).trans hm

theorem wrappedDelItem_bareSim {s : PCState} (hf : filenameTruthy s.filename = false)
    (key : Key) :
    (wrappedDelItem s key).1 = (bareDelItem s.bare key).1 ∧
    (wrappedDelItem s key).2 = { s with entries := (bareDelItem s.bare key).2.entries } := by
  unfold wrappedDelItem bareDelItem
  simp only [PCState.bare]
  cases hl : lookupEntry s.entries key with
  | none => exact ⟨rfl, rfl⟩
  | some v =>
    rw [hf]
    exact ⟨rfl, rfl⟩

theorem popOldest_bareSim {s : PCState} (hf : filenameTruthy s.filename = false) :
    (popOldest s).1 = (barePopOldest s.bare).1 ∧
    (popOldest s).2 = { s with entries := (barePopOldest s.bare).2.entries } := by
  obtain ⟨es, ms, fn, op, dk⟩ := s
  unfold popOldest barePopOldest
  simp only [PCState.bare]
  cases es with
  | nil => exact ⟨rfl, rfl⟩
  | cons kv rest => exact wrappedDelItem_bareSim hf kv.1

theorem evictN_bareSim {s : PCState} (hf : filenameTruthy s.filename = false) (n : Nat) :
    (evictN s n).1 = (bareEvictN s.bare n).1 ∧
    (evictN s n).2 = { s with entries := (bareEvictN s.bare n).2.entries } := by
  induction n generalizing s with
  | zero => exact ⟨rfl, rfl⟩
  | succ n ih =>
    have hpop := popOldest_bareSim hf
    unfold evictN bareEvictN
    cases hp : popOldest s with
    | mk r s1 =>
      rw [hp] at hpop
      cases hq : barePopOldest s.bare with
      | mk rb c1 =>
        rw [hq] at hpop
        obtain ⟨hr, hs⟩ := hpop
        dsimp only at hr hs
        subst hr
        cases r with
        | error e => exact ⟨rfl, hs⟩
        | ok u =>
          have hf1 : filenameTruthy s1.filename = false := by
            rw [hs]
            exact hf
          have hbare1 : s1.bare = c1 := by
            have hm : c1.maxsize = s.maxsize := by
              have := barePopOldest_maxsize s.bare
              rw [hq] at this
              exact this
            rw [hs]
            show (⟨c1.entries, s.maxsize⟩ : BareCache) = c1
            rw [← hm]
          have := ih (s := s1) hf1
          rw [hbare1] at this
          obtain ⟨h1, h2⟩ := this
          refine ⟨h1, ?_⟩
          rw [h2, hs]

theorem wrappedSetItem_bareSim {s : PCState} (hf : filenameTruthy s.filename = false)
    (key : Key) (value : Val) :
    (wrappedSetItem s key value).1 = (bareSetItem s.bare key value).1 ∧
    (wrappedSetItem s key value).2 =
      { s with entries := (bareSetItem s.bare key value).2.entries } := by
  have hev := evictN_bareSim hf (s.entries.length + 1 - s.maxsize)
  unfold wrappedSetItem bareSetItem
  have hbm : s.bare.maxsize = s.maxsize := rfl
  have hbe : s.bare.entries = s.entries := rfl
  rw [hbm, hbe]
  by_cases hm : s.maxsize < 1
  · rw [if_pos hm, if_pos hm]
    exact ⟨rfl, rfl⟩
  · rw [if_neg hm, if_neg hm]
    by_cases hl : (lookupEntry s.entries key).isSome = true
    · rw [if_pos hl, if_pos hl]
      exact ⟨rfl, rfl⟩
    · rw [if_neg hl, if_neg hl]
      cases he : evictN s (s.entries.length + 1 - s.maxsize) with
      | mk r s1 =>
        rw [he] at hev
        cases hq : bareEvictN s.bare (s.entries.length + 1 - s.maxsize) with
        | mk rb c1 =>
          rw [hq] at hev
          obtain ⟨hr, hs⟩ := hev
          dsimp only at hr hs
          subst hr
          cases r with
          | error e => exact ⟨rfl, hs⟩
          | ok u =>
            refine ⟨rfl, ?_⟩
            rw [hs]

theorem bareSetItem_maxsize (c : BareCache) (key : Key) (value : Val) :
    (bareSetItem c key value).2.maxsize = c.maxsize := by
  unfold bareSetItem
  split
  · rfl
  · split
    · rfl
    · cases hq : bareEvictN c (c.entries.length + 1 - c.maxsize) with
      | mk rb c1 =>
        have hm : c1.maxsize = c.maxsize := by
          have := bareEvictN_maxsize c (c.entries.length + 1 - c.maxsize)
          rwa [hq] at this
        cases rb with
        | error e => exact hm
        | ok u => exact hm

theorem bareGetItem_state (c : BareCache) (key : Key) : (bareGetItem c key).2 = c := by
  unfold bareGetItem
  split <;> rfl

theorem stepBare_maxsize (c : BareCache) (op : Op) :
    (stepBare c op).2.maxsize = c.maxsize := by
  cases op with
  | set k v => exact bareSetItem_maxsize c k v
  | del k =>
    show (bareDelItem c k).2.maxsize = c.maxsize
    exact bareDelItem_maxsize c k
  | get k =>
    show (bareGetItem c k).2.maxsize = c.maxsize
    rw [bareGetItem_state]
  | has k => rfl

theorem pcSetItem_bareSim {s : PCState} (hf : filenameTruthy s.filename = false)
    (ho : s.opened = false) (key : Key) (value : Val) :
    (pcSetItem s key value).1 = (bareSetItem s.bare key value).1 ∧
    (pcSetItem s key value).2 =
      { s with entries := (bareSetItem s.bare key value).2.entries } := by
  unfold pcSetItem
  rw [ensureOpened_of_notTruthy hf]
  dsimp only
  have hw := wrappedSetItem_bareSim hf key value
  cases hwe : wrappedSetItem s key value with
  | mk r s2 =>
    rw [hwe] at hw
    obtain ⟨hr, hs⟩ := hw
    dsimp only at hr hs ⊢
    cases r with
    | error e =>
      dsimp only
      exact ⟨hr, hs⟩
    | ok u =>
      dsimp only
      have ho2 : s2.opened = false := by
        rw [hs]
        exact ho
      rw [if_neg]
      · exact ⟨hr, hs⟩
      · rw [ho2]
        exact Bool.noConfusion

theorem pcGetItem_bareSim {s : PCState} (hf : filenameTruthy s.filename = false)
    (key : Key) :
    (pcGetItem s key).1 = (bareGetItem s.bare key).1 ∧ (pcGetItem s key).2 = s := by
  unfold pcGetItem bareGetItem
  rw [ensureOpened_of_notTruthy hf]
  dsimp only
  have hbe : s.bare.entries = s.entries := rfl
  rw [hbe]
  cases lookupEntry s.entries key <;> exact ⟨rfl, rfl⟩

theorem pcContains_bareSim {s : PCState} (hf : filenameTruthy s.filename = false)
    (key : Key) :
    (pcContains s key).1 = (bareContains s.bare key).1 ∧ (pcContains s key).2 = s := by
  unfold pcContains bareContains
  rw [ensureOpened_of_notTruthy hf]
  exact ⟨rfl, rfl⟩

theorem pcDelItem_bareSim {s : PCState} (hf : filenameTruthy s.filename = false)
    (key : Key) :
    (pcDelItem s key).1 = (bareDelItem s.bare key).1 ∧
    (pcDelItem s key).2 = { s with entries := (bareDelItem s.bare key).2.entries } := by
  unfold pcDelItem
  rw [ensureOpened_of_notTruthy hf]
  exact wrappedDelItem_bareSim hf key

theorem stepPC_bareSim {s : PCState} (hf : filenameTruthy s.filename = false)
    (ho : s.opened = false) (op : Op) :
    (stepPC s op).1 = (stepBare s.bare op).1 ∧
    (stepPC s op).2 = { s with entries := (stepBare s.bare op).2.entries } := by
  cases op with
  | set k v =>
    have h := pcSetItem_bareSim hf ho k v
    unfold stepPC stepBare
    dsimp only
    rw [h.1, h.2]
    exact ⟨rfl, rfl⟩
  | del k =>
    have h := pcDelItem_bareSim hf k
    unfold stepPC stepBare
    dsimp only
    rw [h.1, h.2]
    exact ⟨rfl, rfl⟩
  | get k =>
    have h := pcGetItem_bareSim hf k
    unfold stepPC stepBare
    dsimp only
    rw [h.1, h.2, bareGetItem_state]
    exact ⟨rfl, rfl⟩
  | has k =>
    have h := pcContains_bareSim hf k
    unfold stepPC stepBare
    dsimp only
    rw [h.1, h.2]
    exact ⟨rfl, rfl⟩

theorem runPC_bareSim {s : PCState} (hf : filenameTruthy s.filename = false)
    (ho : s.opened = false) (ops : List Op) :
    (runPC s ops).1 = (runBare s.bare ops).1 ∧
    (runPC s ops).2 = { s with entries := (runBare s.bare ops).2.entries } := by
  induction ops generalizing s with
  | nil => exact ⟨rfl, rfl⟩
  | cons op rest ih =>
    have hstep := stepPC_bareSim hf ho op
    unfold runPC runBare
    cases hsp : stepPC s op with
    | mk r s1 =>
      rw [hsp] at hstep
      obtain ⟨hr, hs⟩ := hstep
      dsimp only at hr hs
      have hf1 : filenameTruthy s1.filename = false := by
        rw [hs]
        exact hf
      have ho1 : s1.opened = false := by
        rw [hs]
        exact ho
      have hbare1 : s1.bare = (stepBare s.bare op).2 := by
        have hm := stepBare_maxsize s.bare op
        rw [hs]
        show (⟨(stepBare s.bare op).2.entries, s.maxsize⟩ : BareCache) = (stepBare s.bare op).2
        have : (stepBare s.bare op).2 =
            ⟨(stepBare s.bare op).2.entries, (stepBare s.bare op).2.maxsize⟩ := rfl
        rw [this, hm]
        rfl
      have ihr := ih (s := s1) hf1 ho1
      rw [hbare1] at ihr
      refine ⟨?_, ?_⟩
      · dsimp only
        rw [hr, ihr.1]
      · dsimp only
        rw [ihr.2, hs]

/-! ### Success postconditions of `set` -/

theorem lookupEntry_append_single {es : List (Key × Val)} {k : Key} (v : Val)
    (h : lookupEntry es k = none) : lookupEntry (es ++ [(k, v)]) k = some v := by
  induction es with
  | nil => simp [lookupEntry]
  | cons kv rest ih =>
    obtain ⟨a, b⟩ := kv
    by_cases ha : a = k
    · simp only [lookupEntry, if_pos ha] at h
      exact absurd h (by simp)
    · simp only [lookupEntry, if_neg ha] at h ⊢
      exact ih h

theorem popOldest_entries_drop (s : PCState) :
    ∃ j, (popOldest s).2.entries = s.entries.drop j := by
  unfold popOldest
  cases hs : s.entries with
  | nil => exact ⟨0, hs⟩
  | cons kv rest =>
    refine ⟨1, ?_⟩
    dsimp only
    unfold wrappedDelItem
    rw [hs]
    have hl : lookupEntry (kv :: rest) kv.1 = some kv.2 := by
      simp [lookupEntry]
    rw [hl]
    dsimp only
    have hre : removeEntry (kv :: rest) kv.1 = rest := by
      simp [removeEntry]
    rw [hre]
    split
    · exact (delete_callback_frame _ _).2
    · rfl

theorem evictN_entries_drop (s : PCState) (n : Nat) :
    ∃ j, (evictN s n).2.entries = s.entries.drop j := by
  induction n generalizing s with
  | zero => exact ⟨0, rfl⟩
  | succ n ih =>
    unfold evictN
    cases hp : popOldest s with
    | mk r s1 =>
      have hd : ∃ j, s1.entries = s.entries.drop j := by
        have := popOldest_entries_drop s
        rwa [hp] at this
      obtain ⟨j1, hj1⟩ := hd
      cases r with
      | error e =>
        dsimp only
        exact ⟨j1, hj1⟩
      | ok _ =>
        obtain ⟨j2, hj2⟩ := ih s1
        refine ⟨j1 + j2, ?_⟩
        dsimp only
        rw [hj2, hj1, List.drop_drop]

theorem lookupEntry_drop_none {es : List (Key × Val)} {k : Key} (j : Nat)
    (h : lookupEntry es k = none) : lookupEntry (es.drop j) k = none := by
  rw [lookupEntry_eq_none] at h ⊢
  unfold entryKeys at h ⊢
  intro hmem
  exact h (((List.drop_sublist j es).map (fun kv => kv.1)).mem hmem)

theorem wrappedSetItem_ok_lookup {s : PCState} {key : Key} {value : Val}
    (h : (wrappedSetItem s key value).1 = Except.ok ()) :
    lookupEntry (wrappedSetItem s key value).2.entries key = some value := by
  unfold wrappedSetItem at h ⊢
  by_cases hm : s.maxsize < 1
  · rw [if_pos hm] at h
    exact absurd h (by simp)
  · rw [if_neg hm] at h ⊢
    by_cases hl : (lookupEntry s.entries key).isSome = true
    · rw [if_pos hl] at h ⊢
      exact lookupEntry_replaceEntry value hl
    · rw [if_neg hl] at h ⊢
      cases he : evictN s (s.entries.length + 1 - s.maxsize) with
      | mk r s1 =>
        rw [he] at h
        cases r with
        | error e => exact Except.noConfusion h
        | ok u =>
          dsimp only at h ⊢
          have hnone : lookupEntry s.entries key = none := by
            cases hcase : lookupEntry s.entries key with
            | none => rfl
            | some v0 => exact absurd (by rw [hcase]; rfl) hl
          have hd : ∃ j, s1.entries = s.entries.drop j := by
            have := evictN_entries_drop s (s.entries.length + 1 - s.maxsize)
            rwa [he] at this
          obtain ⟨j, hj⟩ := hd
          rw [hj]
          exact lookupEntry_append_single value (lookupEntry_drop_none j hnone)

theorem initialized_of_frameEq {s t : PCState} (hf : FrameEq s t) (h : Initialized s) :
    Initialized t := by
  intro ht
  rw [hf.2.1] at ht
  rw [hf.2.2]
  exact h ht

theorem pcSetItem_ok_post {s : PCState} {key : Key} {value : Val}
    (h : (pcSetItem s key value).1 = Except.ok ()) :
    lookupEntry (pcSetItem s key value).2.entries key = some value ∧
    Initialized (pcSetItem s key value).2 := by
  unfold pcSetItem at h ⊢
  cases heo : ensureOpened s with
  | mk r0 s1 =>
    rw [heo] at h
    have hinit1 : Initialized s1 := by
      have := ensureOpened_initialized s
      rwa [heo] at this
    cases r0 with
    | error e => exact Except.noConfusion h
    | ok u0 =>
      dsimp only at h ⊢
      cases hws : wrappedSetItem s1 key value with
      | mk r s2 =>
        rw [hws] at h
        have hfr : FrameEq s1 s2 := by
          have := wrappedSetItem_frame s1 key value
          rwa [hws] at this
        cases r with
        | error e => exact Except.noConfusion h
        | ok u =>
          dsimp only at h ⊢
          have hinit2 : Initialized s2 := initialized_of_frameEq hfr hinit1
          have hl2 : lookupEntry s2.entries key = some value := by
            have h2 : (wrappedSetItem s1 key value).1 = Except.ok () := by
              rw [hws]
            have := wrappedSetItem_ok_lookup h2
            rwa [hws] at this
          by_cases hop : s2.opened = true
          · rw [if_pos hop]
            exact ⟨hl2, fun _ => hop⟩
          · rw [if_neg hop]
            exact ⟨hl2, hinit2⟩

/-! ### Claim theorems: direct operation properties -/

/-- C7: `close()` is idempotent.  Calling `pcClose` twice in a row equals
calling it once, and calling it when the store was never opened (`opened =
false`, which covers persistence-disabled instances) produces no error and
leaves the state exactly as it was. -/
theorem C7_close_idempotent (s : PCState) :
    pcClose (pcClose s) = pcClose s ∧ (s.opened = false → pcClose s = s) := by
  constructor
  · unfold pcClose
    by_cases h : s.opened = true
    · rw [if_pos h, if_neg (fun hh => Bool.noConfusion hh)]
    · rw [if_neg h, if_neg h]
  · intro hf
    have h : ¬ s.opened = true := by
      rw [hf]
      exact fun hh => Bool.noConfusion hh
    unfold pcClose
    rw [if_neg h]

theorem C7_close_idempotent_witness :
    pcClose (pcClose (mkPC none 1 [])) = pcClose (mkPC none 1 []) ∧
    pcClose (mkPC none 1 []) = mkPC none 1 [] :=
  ⟨(C7_close_idempotent (mkPC none 1 [])).1,
    (C7_close_idempotent (mkPC none 1 [])).2 rfl⟩

/-- C8: on an initialized instance (the lazy init has already run, or
persistence is disabled), `get` and `contains` are pure read-throughs to the
in-memory cache: the state — in particular the backing store — is returned
unchanged, and the result (including a `KeyError` for a missing key) is
exactly what the bare wrapped cache returns. -/
theorem C8_get_contains_readthrough (s : PCState) (k : Key) (hinit : Initialized s) :
    pcGetItem s k = ((bareGetItem s.bare k).1, s) ∧
    pcContains s k = ((bareContains s.bare k).1, s) := by
  constructor
  · unfold pcGetItem bareGetItem
    rw [ensureOpened_of_initialized hinit]
    dsimp only
    have hbe : s.bare.entries = s.entries := rfl
    rw [hbe]
    cases lookupEntry s.entries k <;> rfl
  · unfold pcContains bareContains
    rw [ensureOpened_of_initialized hinit]
    rfl

theorem C8_get_contains_readthrough_witness :
    pcGetItem ⟨[(1, 2)], 3, some "f", true, [(1, 1, 2)]⟩ 1 =
      ((bareGetItem (PCState.bare ⟨[(1, 2)], 3, some "f", true, [(1, 1, 2)]⟩) 1).1,
        ⟨[(1, 2)], 3, some "f", true, [(1, 1, 2)]⟩) ∧
    pcContains ⟨[(1, 2)], 3, some "f", true, [(1, 1, 2)]⟩ 1 =
      ((bareContains (PCState.bare ⟨[(1, 2)], 3, some "f", true, [(1, 1, 2)]⟩) 1).1,
        ⟨[(1, 2)], 3, some "f", true, [(1, 1, 2)]⟩) :=
  C8_get_contains_readthrough ⟨[(1, 2)], 3, some "f", true, [(1, 1, 2)]⟩ 1 (fun _ => rfl)

/-- C4: with the store open and persistence enabled, deleting a key absent
from the in-memory cache raises exactly the `KeyError` the bare wrapped cache
raises and leaves the whole state — in particular the backing store —
untouched (the deletion callback does not fire).  When the delete returns
successfully, the in-memory entry was removed and the store record under the
hashed key was removed by the callback, which the code runs exactly once,
after the raw removal. -/
theorem C4_delete_absent_and_success (s : PCState) (k : Key)
    (hop : s.opened = true) (hft : filenameTruthy s.filename = true) :
    (lookupEntry s.entries k = none →
      pcDelItem s k = (Except.error PyErr.keyError, s) ∧
      (bareDelItem s.bare k).1 = Except.error PyErr.keyError) ∧
    ((pcDelItem s k).1 = Except.ok () →
      (pcDelItem s k).2.entries = removeEntry s.entries k ∧
      (pcDelItem s k).2.disk = storeDel s.disk (hash_key k)) := by
  have hinit : Initialized s := fun _ => hop
  constructor
  · intro habs
    constructor
    · unfold pcDelItem
      rw [ensureOpened_of_initialized hinit]
      dsimp only
      unfold wrappedDelItem
      rw [habs]
    · unfold bareDelItem
      have hbe : s.bare.entries = s.entries := rfl
      rw [hbe, habs]
  · intro hok
    unfold pcDelItem at hok ⊢
    rw [ensureOpened_of_initialized hinit] at hok ⊢
    dsimp only at hok ⊢
    unfold wrappedDelItem at hok ⊢
    cases hl : lookupEntry s.entries k with
    | none =>
      rw [hl] at hok
      exact Except.noConfusion hok
    | some v =>
      rw [hl] at hok
      dsimp only at hok ⊢
      rw [if_pos hft] at hok ⊢
      unfold delete_callback at hok ⊢
      dsimp only at hok ⊢
      rw [if_pos hop] at hok ⊢
      cases hsg : storeGet s.disk (hash_key k) with
      | none =>
        rw [hsg] at hok
        exact Except.noConfusion hok
      | some kv =>
        exact ⟨rfl, rfl⟩

theorem C4_delete_absent_and_success_witness :
    ((lookupEntry (PCState.entries ⟨[(1, 2)], 3, some "f", true, [(1, 1, 2)]⟩) 5 = none →
      pcDelItem ⟨[(1, 2)], 3, some "f", true, [(1, 1, 2)]⟩ 5 =
        (Except.error PyErr.keyError, ⟨[(1, 2)], 3, some "f", true, [(1, 1, 2)]⟩) ∧
      (bareDelItem (PCState.bare ⟨[(1, 2)], 3, some "f", true, [(1, 1, 2)]⟩) 5).1 =
        Except.error PyErr.keyError) ∧
    ((pcDelItem ⟨[(1, 2)], 3, some "f", true, [(1, 1, 2)]⟩ 5).1 = Except.ok () →
      (pcDelItem ⟨[(1, 2)], 3, some "f", true, [(1, 1, 2)]⟩ 5).2.entries =
        removeEntry [(1, 2)] 5 ∧
      (pcDelItem ⟨[(1, 2)], 3, some "f", true, [(1, 1, 2)]⟩ 5).2.disk =
        storeDel [(1, 1, 2)] (hash_key 5))) :=
  C4_delete_absent_and_success ⟨[(1, 2)], 3, some "f", true, [(1, 1, 2)]⟩ 5 rfl rfl

/-- C10: when the deletion hook fires for a key whose hashed store key is
absent from the open backing store, the delete raises `KeyError` to its
caller, but the in-memory removal has already happened and is not rolled
back: the returned state has the entry removed while the store is unchanged —
delete is not atomic between the in-memory cache and the store. -/
theorem C10_delete_hook_keyerror_not_rolled_back (s : PCState) (k : Key) (v : Val)
    (hop : s.opened = true) (hft : filenameTruthy s.filename = true)
    (hmem : lookupEntry s.entries k = some v)
    (habs : storeGet s.disk (hash_key k) = none) :
    pcDelItem s k =
      (Except.error PyErr.keyError, { s with entries := removeEntry s.entries k }) := by
  have hinit : Initialized s := fun _ => hop
  unfold pcDelItem
  rw [ensureOpened_of_initialized hinit]
  dsimp only
  unfold wrappedDelItem
  rw [hmem]
  dsimp only
  rw [if_pos hft]
  unfold delete_callback
  dsimp only
  rw [if_pos hop, habs]

theorem C10_delete_hook_keyerror_not_rolled_back_witness :
    pcDelItem ⟨[(1, 2)], 3, some "f", true, []⟩ 1 =
      (Except.error PyErr.keyError, ⟨removeEntry [(1, 2)] 1, 3, some "f", true, []⟩) :=
  C10_delete_hook_keyerror_not_rolled_back ⟨[(1, 2)], 3, some "f", true, []⟩ 1 2
    rfl rfl rfl rfl

/-- C5: round-trip — whenever `set(k, v)` returns successfully (the wrapped
cache accepted the value), an immediate `get(k)` returns `v` and leaves the
state unchanged, whether or not persistence is enabled. -/
theorem C5_set_get_roundtrip (s : PCState) (k : Key) (v : Val)
    (h : (pcSetItem s k v).1 = Except.ok ()) :
    pcGetItem (pcSetItem s k v).2 k = (Except.ok v, (pcSetItem s k v).2) := by
  obtain ⟨hl, hinit⟩ := pcSetItem_ok_post h
  unfold pcGetItem
  rw [ensureOpened_of_initialized hinit]
  dsimp only
  rw [hl]

theorem C5_set_get_roundtrip_witness :
    pcGetItem (pcSetItem (mkPC (some "f") 2 []) 1 5).2 1 =
      (Except.ok 5, (pcSetItem (mkPC (some "f") 2 []) 1 5).2) :=
  C5_set_get_roundtrip (mkPC (some "f") 2 []) 1 5 rfl

/-! ### Claim theorems: persistence disabled -/

/-- C3: with persistence disabled (no backing filename), every operation in
every sequence returns exactly the result (or error) the bare wrapped
eviction cache returns, and after any prefix of the sequence the state shows
the store was never opened (`opened = false`), the backing file is untouched
(`disk` unchanged), and only the wrapped cache's entries evolved — i.e. the
deletion hook is never installed or invoked. -/
theorem C3_disabled_behaves_as_bare (ms : Nat) (d : Store) (ops : List Op) (n : Nat) :
    (runPC (mkPC none ms d) ops).1 = (runBare ⟨[], ms⟩ ops).1 ∧
    (runPC (mkPC none ms d) (ops.take n)).2 =
      { mkPC none ms d with
        entries := (runBare (⟨[], ms⟩ : BareCache) (ops.take n)).2.entries } := by
  constructor
  · exact (runPC_bareSim (s := mkPC none ms d) rfl rfl ops).1
  · exact (runPC_bareSim (s := mkPC none ms d) rfl rfl (ops.take n)).2

/-- C9: constructing with an empty string as the filename disables
persistence exactly as passing `None` does — the persistence branch tests the
filename's truthiness — so every operation sequence produces bare-cache
results, the store is never opened, the backing file is untouched, and no
deletion callback ever runs. -/
theorem C9_empty_filename_disables_persistence (ms : Nat) (d : Store) (ops : List Op)
    (n : Nat) :
    (runPC (mkPC (some "") ms d) ops).1 = (runBare ⟨[], ms⟩ ops).1 ∧
    (runPC (mkPC (some "") ms d) (ops.take n)).2 =
      { mkPC (some "") ms d with
        entries := (runBare (⟨[], ms⟩ : BareCache) (ops.take n)).2.entries } := by
  constructor
  · exact (runPC_bareSim (s := mkPC (some "") ms d) rfl rfl ops).1
  · exact (runPC_bareSim (s := mkPC (some "") ms d) rfl rfl (ops.take n)).2

/-! ### Claim theorem: eviction propagation with capacity 1 -/

/-- C2: on a `PersistentCache` with persistence enabled wrapping a
capacity-1 cache over a fresh backing file, `set(a, v1)` then `set(b, v2)`
(with `a ≠ b`) leaves the backing store containing exactly b's record — a's
record was removed by the deletion hook the internal eviction fired — and a
fresh `PersistentCache` opened on the same backing file loads only key `b`:
it contains `b` and no other key. -/
theorem C2_capacity_one_eviction_propagates (fname : String) (a b : Key) (v1 v2 : Val)
    (hfn : filenameTruthy (some fname) = true) (hab : a ≠ b) :
    (pcSetItem (pcSetItem (mkPC (some fname) 1 []) a v1).2 b v2).2.disk =
      [(hash_key b, b, v2)] ∧
    (pcSetItem (pcSetItem (mkPC (some fname) 1 []) a v1).2 b v2).2.entries = [(b, v2)] ∧
    (ensureOpened (mkPC (some fname) 1 [(hash_key b, b, v2)])).2.entries = [(b, v2)] ∧
    (pcContains (mkPC (some fname) 1 [(hash_key b, b, v2)]) b).1 = Except.ok true ∧
    (∀ k, k ≠ b →
      (pcContains (mkPC (some fname) 1 [(hash_key b, b, v2)]) k).1 = Except.ok false) := by
  have hA : pcSetItem (mkPC (some fname) 1 []) a v1 =
      (Except.ok (), ⟨[(a, v1)], 1, some fname, true, [(hash_key a, a, v1)]⟩) := by
    simp [pcSetItem, ensureOpened, mkPC, hfn, replay, wrappedSetItem, lookupEntry, evictN,
      storeSet]
  have hB : pcSetItem ⟨[(a, v1)], 1, some fname, true, [(hash_key a, a, v1)]⟩ b v2 =
      (Except.ok (), ⟨[(b, v2)], 1, some fname, true, [(hash_key b, b, v2)]⟩) := by
    simp [pcSetItem, ensureOpened, hfn, wrappedSetItem, lookupEntry, evictN, popOldest,
      wrappedDelItem, removeEntry, delete_callback, storeGet, storeDel, storeSet, hab]
  rw [hA]
  dsimp only
  rw [hB]
  refine ⟨rfl, rfl, ?_, ?_, ?_⟩
  · have hC : ensureOpened (mkPC (some fname) 1 [(hash_key b, b, v2)]) =
        (Except.ok (), ⟨[(b, v2)], 1, some fname, true, [(hash_key b, b, v2)]⟩) := by
      simp [ensureOpened, mkPC, hfn, replay, wrappedSetItem, lookupEntry, evictN]
    rw [hC]
  · simp [pcContains, ensureOpened, mkPC, hfn, replay, wrappedSetItem, lookupEntry, evictN]
  · intro k hk
    simp [pcContains, ensureOpened, mkPC, hfn, replay, wrappedSetItem, lookupEntry, evictN,
      Ne.symm hk]

theorem C2_capacity_one_eviction_propagates_witness :
    (pcSetItem (pcSetItem (mkPC (some "f") 1 []) 1 1).2 2 2).2.disk =
      [(hash_key 2, 2, 2)] ∧
    (pcSetItem (pcSetItem (mkPC (some "f") 1 []) 1 1).2 2 2).2.entries = [(2, 2)] ∧
    (ensureOpened (mkPC (some "f") 1 [(hash_key 2, 2, 2)])).2.entries = [(2, 2)] ∧
    (pcContains (mkPC (some "f") 1 [(hash_key 2, 2, 2)]) 2).1 = Except.ok true ∧
    (∀ k, k ≠ 2 →
      (pcContains (mkPC (some "f") 1 [(hash_key 2, 2, 2)]) k).1 = Except.ok false) :=
  C2_capacity_one_eviction_propagates "f" 1 2 1 2 rfl (by decide)

/-! ### The replay invariant -/

theorem hash_key_inj {k1 k2 : Key} (h1 : k1 < pyHashMod) (h2 : k2 < pyHashMod)
    (h : hash_key k1 = hash_key k2) : k1 = k2 := by
  unfold hash_key pyHash at h
  rwa [Nat.mod_eq_of_lt h1, Nat.mod_eq_of_lt h2] at h

theorem store_record_unique {d : Store} {e1 e2 : StoreKey × Key × Val}
    (hnd : (storeKeys d).Nodup) (h1 : e1 ∈ d) (h2 : e2 ∈ d) (hk : e1.1 = e2.1) :
    e1 = e2 := by
  have g1 := storeGet_of_mem hnd h1
  have g2 := storeGet_of_mem hnd h2
  rw [hk, g2] at g1
  have h22 := Option.some.inj g1
  obtain ⟨a1, b1⟩ := e1
  obtain ⟨a2, b2⟩ := e2
  dsimp only at hk h22
  rw [hk, h22]

theorem entryKeys_removeEntry_subset {es : List (Key × Val)} {k a : Key}
    (ha : a ∈ entryKeys (removeEntry es k)) : a ∈ entryKeys es := by
  unfold entryKeys at ha ⊢
  exact ((removeEntry_sublist es k).map (fun kv => kv.1)).mem ha

theorem mem_entryKeys_of_lookup {es : List (Key × Val)} {k : Key} {v : Val}
    (h : lookupEntry es k = some v) : k ∈ entryKeys es := by
  unfold entryKeys
  exact List.mem_map.mpr ⟨(k, v), mem_of_lookupEntry h, rfl⟩

theorem wrappedDelItem_replayInv {s : PCState} {pending : List (StoreKey × Key × Val)}
    {key : Key} {v : Val} (hinv : ReplayInv s pending)
    (hmem : lookupEntry s.entries key = some v) :
    wrappedDelItem s key =
      (Except.ok (), { s with entries := removeEntry s.entries key,
                              disk := storeDel s.disk (hash_key key) }) ∧
    ReplayInv { s with entries := removeEntry s.entries key,
                       disk := storeDel s.disk (hash_key key) } pending := by
  obtain ⟨hft, hop, hndE, hndD, hndP, hcons, hpk, hmir⟩ := hinv
  have hrec : (hash_key key, key, v) ∈ s.disk :=
    (hmir (hash_key key) key v).mpr (Or.inl ⟨rfl, mem_of_lookupEntry hmem⟩)
  have hget : storeGet s.disk (hash_key key) = some (key, v) := by
    have := storeGet_of_mem hndD hrec
    exact this
  constructor
  · unfold wrappedDelItem
    rw [hmem]
    dsimp only
    rw [if_pos hft]
    unfold delete_callback
    dsimp only
    rw [if_pos hop, hget]
  · refine ⟨hft, hop, entryKeys_removeEntry_nodup hndE, storeKeys_storeDel_nodup hndD, hndP,
      ?_, ?_, ?_⟩
    · intro e he
      exact hcons e ((mem_storeDel_iff hndD).mp he).1
    · intro e he hmem2
      exact hpk e he (entryKeys_removeEntry_subset hmem2)
    · intro hk' k' v'
      dsimp only
      rw [mem_storeDel_iff hndD, hmir hk' k' v']
      constructor
      · rintro ⟨hin, hne⟩
        rcases hin with ⟨rfl, hent⟩ | hp
        · left
          refine ⟨rfl, (mem_removeEntry_iff hndE).mpr ⟨hent, ?_⟩⟩
          intro hkk
          apply hne
          show hash_key k' = hash_key key
          rw [show k' = key from hkk]
        · right
          exact hp
      · rintro (⟨rfl, hent⟩ | hp)
        · have hent2 := (mem_removeEntry_iff hndE).mp hent
          refine ⟨Or.inl ⟨rfl, hent2.1⟩, ?_⟩
          intro heq
          have hrec2 : (hash_key k', k', v') ∈ s.disk :=
            (hmir _ k' v').mpr (Or.inl ⟨rfl, hent2.1⟩)
          have huniq := store_record_unique hndD hrec2 hrec heq
          have hkk : k' = key := congrArg (fun e => e.2.1) huniq
          exact hent2.2 hkk
        · refine ⟨Or.inr hp, ?_⟩
          intro heq
          have hpd : (hk', k', v') ∈ s.disk := (hmir hk' k' v').mpr (Or.inr hp)
          have huniq := store_record_unique hndD hpd hrec heq
          have hkk : k' = key := congrArg (fun e => e.2.1) huniq
          apply hpk (hk', k', v') hp
          show k' ∈ entryKeys s.entries
          rw [hkk]
          exact mem_entryKeys_of_lookup hmem

theorem popOldest_replayInv {s : PCState} {pending : List (StoreKey × Key × Val)}
    (hinv : ReplayInv s pending) {kv : Key × Val} {rest : List (Key × Val)}
    (hent : s.entries = kv :: rest) :
    (popOldest s).1 = Except.ok () ∧ ReplayInv (popOldest s).2 pending ∧
    (popOldest s).2.entries = rest ∧
    (∀ e ∈ (popOldest s).2.disk, e ∈ s.disk) := by
  have hndD := hinv.2.2.2.1
  have hlook : lookupEntry s.entries kv.1 = some kv.2 := by
    rw [hent]
    simp [lookupEntry]
  have hdel := wrappedDelItem_replayInv hinv hlook
  have hpop : popOldest s = wrappedDelItem s kv.1 := by
    unfold popOldest
    rw [hent]
  rw [hpop, hdel.1]
  refine ⟨rfl, hdel.2, ?_, ?_⟩
  · show removeEntry s.entries kv.1 = rest
    rw [hent]
    simp [removeEntry]
  · intro e he
    exact ((mem_storeDel_iff hndD).mp he).1

theorem evictN_replayInv {pending : List (StoreKey × Key × Val)} (n : Nat) :
    ∀ s : PCState, ReplayInv s pending → n ≤ s.entries.length →
    (evictN s n).1 = Except.ok () ∧ ReplayInv (evictN s n).2 pending ∧
    (evictN s n).2.entries = s.entries.drop n ∧
    (∀ e ∈ (evictN s n).2.disk, e ∈ s.disk) := by
  induction n with
  | zero =>
    intro s hinv _
    exact ⟨rfl, hinv, rfl, fun e he => he⟩
  | succ n ih =>
    intro s hinv hlen
    cases hent : s.entries with
    | nil =>
      rw [hent] at hlen
      simp at hlen
    | cons kv rest =>
      have hpop := popOldest_replayInv hinv hent
      unfold evictN
      cases hp : popOldest s with
      | mk r s1 =>
        rw [hp] at hpop
        obtain ⟨hr, hinv1, hent1, hsub1⟩ := hpop
        dsimp only at hr hent1 hsub1
        subst hr
        dsimp only
        have hlen1 : n ≤ s1.entries.length := by
          rw [hent1]
          rw [hent] at hlen
          simpa using Nat.le_of_succ_le_succ hlen
        obtain ⟨hq1, hq2, hq3, hq4⟩ := ih s1 hinv1 hlen1
        refine ⟨hq1, hq2, ?_, ?_⟩
        · rw [hq3, hent1]
          rfl
        · intro e he
          exact hsub1 e (hq4 e he)

theorem entryKeys_append_single (es : List (Key × Val)) (kv : Key × Val) :
    entryKeys (es ++ [kv]) = entryKeys es ++ [kv.1] := by
  unfold entryKeys
  rw [List.map_append]
  rfl

theorem entryKeys_append_nodup {es : List (Key × Val)} {kv : Key × Val}
    (hnd : (entryKeys es).Nodup) (hnotin : kv.1 ∉ entryKeys es) :
    (entryKeys (es ++ [kv])).Nodup := by
  rw [entryKeys_append_single]
  simp [List.nodup_append, hnd, hnotin]

theorem mem_entryKeys_append {es : List (Key × Val)} {kv : Key × Val} {a : Key} :
    a ∈ entryKeys (es ++ [kv]) ↔ a ∈ entryKeys es ∨ a = kv.1 := by
  rw [entryKeys_append_single]
  simp

theorem entryKeys_drop_subset {es : List (Key × Val)} {n : Nat} {a : Key}
    (ha : a ∈ entryKeys (es.drop n)) : a ∈ entryKeys es := by
  unfold entryKeys at ha ⊢
  exact ((List.drop_sublist n es).map (fun kv => kv.1)).mem ha

theorem mem_storeKeys {d : Store} {e : StoreKey × Key × Val} (he : e ∈ d) :
    e.1 ∈ storeKeys d := by
  unfold storeKeys
  exact List.mem_map.mpr ⟨e, he, rfl⟩

theorem storeKeys_tail_nodup {e : StoreKey × Key × Val} {d : Store}
    (hnd : (storeKeys (e :: d)).Nodup) :
    (storeKeys d).Nodup ∧ e.1 ∉ storeKeys d := by
  unfold storeKeys at hnd ⊢
  rw [List.map_cons] at hnd
  exact ⟨(List.nodup_cons.mp hnd).2, (List.nodup_cons.mp hnd).1⟩

theorem wrappedSetItem_replayStep {s : PCState} {pending : List (StoreKey × Key × Val)}
    {hk : StoreKey} {key : Key} {value : Val}
    (hinv : ReplayInv s ((hk, key, value) :: pending)) (hms : 1 ≤ s.maxsize) :
    (wrappedSetItem s key value).1 = Except.ok () ∧
    ReplayInv (wrappedSetItem s key value).2 pending ∧
    (∀ kv ∈ (wrappedSetItem s key value).2.entries, kv ∈ s.entries ∨ kv = (key, value)) ∧
    (∀ e ∈ (wrappedSetItem s key value).2.disk, e ∈ s.disk) := by
  obtain ⟨hft, hop, hndE, hndD, hndP, hcons, hpk, hmir⟩ := hinv
  have hinv0 : ReplayInv s ((hk, key, value) :: pending) :=
    ⟨hft, hop, hndE, hndD, hndP, hcons, hpk, hmir⟩
  have hhead : (hk, key, value) ∈ s.disk :=
    (hmir hk key value).mpr (Or.inr (List.mem_cons_self _ _))
  have hhk : hk = hash_key key := hcons _ hhead
  have hknot : key ∉ entryKeys s.entries := hpk (hk, key, value) (List.mem_cons_self _ _)
  have hlooknone : lookupEntry s.entries key = none := lookupEntry_eq_none.mpr hknot
  have hcond : ¬ ((lookupEntry s.entries key).isSome = true) := by
    rw [hlooknone]
    simp
  unfold wrappedSetItem
  rw [if_neg (by omega : ¬ s.maxsize < 1), if_neg hcond]
  have hlen : s.entries.length + 1 - s.maxsize ≤ s.entries.length := by omega
  have hev := evictN_replayInv (s.entries.length + 1 - s.maxsize) s hinv0 hlen
  cases he : evictN s (s.entries.length + 1 - s.maxsize) with
  | mk r s1 =>
    rw [he] at hev
    obtain ⟨hr, hinv1, hent1, hsub1⟩ := hev
    dsimp only at hr hent1 hsub1
    subst hr
    dsimp only
    obtain ⟨hft1, hop1, hndE1, hndD1, hndP1, hcons1, hpk1, hmir1⟩ := hinv1
    have hknot1 : key ∉ entryKeys s1.entries := by
      intro hcon
      rw [hent1] at hcon
      exact hknot (entryKeys_drop_subset hcon)
    have hndP' := storeKeys_tail_nodup hndP1
    refine ⟨rfl, ⟨hft1, hop1, entryKeys_append_nodup hndE1 hknot1, hndD1, hndP'.1,
      hcons1, ?_, ?_⟩, ?_, ?_⟩
    · -- pending keys are not among the new entry keys
      intro e he2 hcon
      rcases mem_entryKeys_append.mp hcon with hcon | hcon
      · exact hpk1 e (List.mem_cons_of_mem _ he2) hcon
      · -- e.2.1 = key forces e.1 = hk, contradicting pending-key freshness
        have hed : e ∈ s1.disk := (hmir1 e.1 e.2.1 e.2.2).mpr (Or.inr
          (List.mem_cons_of_mem _ (by simpa using he2)))
        have hcons_e : e.1 = hash_key e.2.1 := hcons1 _ hed
        have : e.1 = hk := by
          rw [hcons_e, hcon, hhk]
        have hmemk : e.1 ∈ storeKeys pending := mem_storeKeys he2
        rw [this] at hmemk
        exact hndP'.2 hmemk
    · -- the mirror, with the head record now covered by the new entry
      intro hk' k' v'
      dsimp only
      rw [hmir1 hk' k' v']
      constructor
      · rintro (⟨rfl, hent⟩ | hp)
        · exact Or.inl ⟨rfl, List.mem_append_left _ hent⟩
        · rcases List.mem_cons.mp hp with heq | hp2
          · cases heq
            exact Or.inl ⟨hhk.symm ▸ rfl, List.mem_append_right _ (List.mem_cons_self _ _)⟩
          · exact Or.inr hp2
      · rintro (⟨rfl, hent⟩ | hp)
        · rcases List.mem_append.mp hent with hent | hent
          · exact Or.inl ⟨rfl, hent⟩
          · rcases List.mem_cons.mp hent with heq | habs
            · cases heq
              right
              rw [← hhk]
              exact List.mem_cons_self _ _
            · simp at habs
        · exact Or.inr (List.mem_cons_of_mem _ hp)
    · intro kv hkv
      rcases List.mem_append.mp hkv with hkv | hkv
      · left
        rw [hent1] at hkv
        exact (List.drop_sublist _ _).mem hkv
      · right
        simpa using hkv
    · exact hsub1

theorem replay_replayInv (pending : List (StoreKey × Key × Val)) :
    ∀ s : PCState, ReplayInv s pending → 1 ≤ s.maxsize →
    (replay s pending).1 = Except.ok () ∧ ReplayInv (replay s pending).2 [] ∧
    (∀ kv ∈ (replay s pending).2.entries,
      kv ∈ s.entries ∨ ∃ hk, (hk, kv) ∈ pending) ∧
    (∀ e ∈ (replay s pending).2.disk, e ∈ s.disk) := by
  induction pending with
  | nil =>
    intro s hinv _
    exact ⟨rfl, hinv, fun kv hkv => Or.inl hkv, fun e he => he⟩
  | cons rec0 rest ih =>
    intro s hinv hms
    obtain ⟨hk0, key0, value0⟩ := rec0
    have hstep := wrappedSetItem_replayStep hinv hms
    unfold replay
    dsimp only
    cases hw : wrappedSetItem s key0 value0 with
    | mk r s1 =>
      rw [hw] at hstep
      obtain ⟨hr, hinv1, hfrom1, hsub1⟩ := hstep
      dsimp only at hr hfrom1 hsub1
      subst hr
      dsimp only
      have hms1 : 1 ≤ s1.maxsize := by
        have hfr := wrappedSetItem_frame s key0 value0
        rw [hw] at hfr
        rw [hfr.1]
        exact hms
      obtain ⟨hq1, hq2, hq3, hq4⟩ := ih s1 hinv1 hms1
      refine ⟨hq1, hq2, ?_, ?_⟩
      · intro kv hkv
        rcases hq3 kv hkv with hkv1 | ⟨hkr, hkm⟩
        · rcases hfrom1 kv hkv1 with h1 | h1
          · exact Or.inl h1
          · refine Or.inr ⟨hk0, ?_⟩
            rw [h1]
            exact List.mem_cons_self _ _
        · exact Or.inr ⟨hkr, List.mem_cons_of_mem _ hkm⟩
      · intro e he
        exact hsub1 e (hq4 e he)

theorem ensureOpened_wellformed {s : PCState} (hft : filenameTruthy s.filename = true)
    (hop : s.opened = false) (hent : s.entries = []) (hms : 1 ≤ s.maxsize)
    (hnd : (storeKeys s.disk).Nodup) (hcons : ∀ e ∈ s.disk, e.1 = hash_key e.2.1) :
    (ensureOpened s).1 = Except.ok () ∧ ReplayInv (ensureOpened s).2 [] ∧
    (∀ kv ∈ (ensureOpened s).2.entries, (hash_key kv.1, kv) ∈ s.disk) ∧
    (∀ e ∈ (ensureOpened s).2.disk, e ∈ s.disk) := by
  have hentkeys : entryKeys s.entries = [] := by
    rw [hent]
    rfl
  have hinv : ReplayInv { s with opened := true } s.disk := by
    refine ⟨hft, rfl, ?_, hnd, hnd, hcons, ?_, ?_⟩
    · show (entryKeys s.entries).Nodup
      rw [hentkeys]
      exact List.nodup_nil
    · intro e _
      show e.2.1 ∉ entryKeys s.entries
      rw [hentkeys]
      exact List.not_mem_nil _
    · intro hk k v
      constructor
      · intro h1
        exact Or.inr h1
      · rintro (⟨rfl, habs⟩ | h1)
        · rw [show ({ s with opened := true } : PCState).entries = s.entries from rfl,
            hent] at habs
          exact absurd habs (List.not_mem_nil _)
        · exact h1
  have hrun := replay_replayInv s.disk { s with opened := true } hinv hms
  have heq : ensureOpened s = replay { s with opened := true } s.disk := by
    unfold ensureOpened
    rw [if_pos ⟨hft, hop⟩]
  rw [heq]
  refine ⟨hrun.1, hrun.2.1, ?_, ?_⟩
  · intro kv hkv
    rcases hrun.2.2.1 kv hkv with h1 | ⟨hk, h1⟩
    · rw [show ({ s with opened := true } : PCState).entries = s.entries from rfl,
        hent] at h1
      exact absurd h1 (List.not_mem_nil _)
    · have hc := hcons (hk, kv) h1
      dsimp only at hc
      rw [← hc]
      exact h1
  · exact hrun.2.2.2

/-! ### Claim theorems: the lazy load (first-use replay) -/

/-- C6 (amended): on the first operation of a persistence-enabled
`PersistentCache` with positive capacity over a backing file whose records
are self-consistent (duplicate-free store keys, each record keyed by the hash
of its embedded key — i.e. records this program itself persisted), the lazy
load completes without error, the store ends open, every loaded entry comes
verbatim from a persisted record, and the on-disk state exactly mirrors the
in-memory cache — records whose entry was displaced by a capacity eviction
during the replay were deleted from the store by the deletion hook. -/
theorem C6_lazy_load_selfcorrects (fn : Option String) (ms : Nat) (d : Store)
    (hfn : filenameTruthy fn = true) (hms : 1 ≤ ms)
    (hnd : (storeKeys d).Nodup) (hcons : ∀ e ∈ d, e.1 = hash_key e.2.1) :
    (ensureOpened (mkPC fn ms d)).1 = Except.ok () ∧
    (ensureOpened (mkPC fn ms d)).2.opened = true ∧
    ExactMirror (ensureOpened (mkPC fn ms d)).2 ∧
    (∀ kv ∈ (ensureOpened (mkPC fn ms d)).2.entries, (hash_key kv.1, kv) ∈ d) ∧
    (∀ e ∈ d, e.2 ∈ (ensureOpened (mkPC fn ms d)).2.entries ∨
      e ∉ (ensureOpened (mkPC fn ms d)).2.disk) := by
  have h := ensureOpened_wellformed (s := mkPC fn ms d) hfn rfl rfl hms hnd hcons
  obtain ⟨hok, hinv, hfrom, hsub⟩ := h
  have hmir : MirrorExcept (ensureOpened (mkPC fn ms d)).2 [] := hinv.2.2.2.2.2.2.2
  have hexact : ExactMirror (ensureOpened (mkPC fn ms d)).2 := by
    intro hk k v
    have := hmir hk k v
    simpa using this
  refine ⟨hok, hinv.2.1, hexact, hfrom, ?_⟩
  intro e he
  by_cases hin : e ∈ (ensureOpened (mkPC fn ms d)).2.disk
  · left
    exact ((hexact e.1 e.2.1 e.2.2).mp hin).2
  · right
    exact hin

theorem C6_lazy_load_selfcorrects_witness :
    (ensureOpened (mkPC (some "f") 1 [(5, 5, 50), (7, 7, 70)])).1 = Except.ok () ∧
    (ensureOpened (mkPC (some "f") 1 [(5, 5, 50), (7, 7, 70)])).2.opened = true ∧
    ExactMirror (ensureOpened (mkPC (some "f") 1 [(5, 5, 50), (7, 7, 70)])).2 ∧
    (∀ kv ∈ (ensureOpened (mkPC (some "f") 1 [(5, 5, 50), (7, 7, 70)])).2.entries,
      (hash_key kv.1, kv) ∈ [(5, 5, 50), (7, 7, 70)]) ∧
    (∀ e ∈ [(5, 5, 50), (7, 7, 70)],
      e.2 ∈ (ensureOpened (mkPC (some "f") 1 [(5, 5, 50), (7, 7, 70)])).2.entries ∨
      e ∉ (ensureOpened (mkPC (some "f") 1 [(5, 5, 50), (7, 7, 70)])).2.disk) :=
  C6_lazy_load_selfcorrects (some "f") 1 [(5, 5, 50), (7, 7, 70)] rfl (by decide)
    (by decide) (by decide)

/-- C6 counterexample: the claim as stated fails on an orphan record whose
store key is not the hash of its embedded key.  With capacity 1 and backing
file `[(999, (5, 50)), ("7", (7, 70))]` (the first record manually inserted
under an unrelated store key), the replay inserts key 5, then inserting key 7
evicts 5; the deletion hook runs `del store[hash(5)]`, which is absent, so
the load pass aborts with `KeyError`: the first operation raises, the
in-memory cache is left empty, and the store is left untouched — not
matching memory. -/
theorem C6_counterexample_orphan_aborts_load :
    (ensureOpened (mkPC (some "f") 1 [(999, 5, 50), (7, 7, 70)])).1 =
      Except.error PyErr.keyError ∧
    (ensureOpened (mkPC (some "f") 1 [(999, 5, 50), (7, 7, 70)])).2.entries = [] ∧
    (ensureOpened (mkPC (some "f") 1 [(999, 5, 50), (7, 7, 70)])).2.disk =
      [(999, 5, 50), (7, 7, 70)] ∧
    (pcContains (mkPC (some "f") 1 [(999, 5, 50), (7, 7, 70)]) 7).1 =
      Except.error PyErr.keyError := by
  refine ⟨?_, ?_, ?_, ?_⟩ <;> rfl

/-! ### The run-time invariant (persistence enabled) -/

theorem mem_entryKeys_of_mem {es : List (Key × Val)} {kv : Key × Val} (h : kv ∈ es) :
    kv.1 ∈ entryKeys es := by
  unfold entryKeys
  exact List.mem_map.mpr ⟨kv, h, rfl⟩

theorem replayInv_of_inv {s : PCState} (hinv : Inv s) (hop : s.opened = true) :
    ReplayInv s [] := by
  obtain ⟨hft, hms, hes, hds, hcons, hndD, hndE, hmir, _⟩ := hinv
  exact ⟨hft, hop, hndE, hndD, List.nodup_nil, hcons,
    fun e he => absurd he (List.not_mem_nil _), hmir hop⟩

theorem inv_of_replayInv {s : PCState} (hri : ReplayInv s []) (hms : 1 ≤ s.maxsize)
    (hes : EntriesSmall s) (hds : DiskSmall s.disk) : Inv s := by
  obtain ⟨hft, hop, hndE, hndD, _, hcons, _, hmir⟩ := hri
  refine ⟨hft, hms, hes, hds, hcons, hndD, hndE, fun _ => hmir, fun habs => ?_⟩
  rw [hop] at habs
  exact absurd habs Bool.noConfusion

theorem ensureOpened_inv {s : PCState} (hinv : Inv s) :
    (ensureOpened s).1 = Except.ok () ∧ Inv (ensureOpened s).2 ∧
    (ensureOpened s).2.opened = true := by
  by_cases hop : s.opened = true
  · rw [ensureOpened_of_initialized (fun _ => hop)]
    exact ⟨rfl, hinv, hop⟩
  · obtain ⟨hft, hms, hes, hds, hcons, hndD, hndE, hmir, hemp⟩ := hinv
    have hopf : s.opened = false := by
      cases h2 : s.opened
      · rfl
      · exact absurd h2 hop
    obtain ⟨hok, hri, hfrom, hsub⟩ :=
      ensureOpened_wellformed hft hopf (hemp hopf) hms hndD hcons
    have hms2 : 1 ≤ (ensureOpened s).2.maxsize := by
      rw [(ensureOpened_maxsize s).1]
      exact hms
    refine ⟨hok, inv_of_replayInv hri hms2 ?_ ?_, hri.2.1⟩
    · intro kv hkv
      exact hds _ (hfrom kv hkv)
    · intro e he
      exact hds e (hsub e he)

theorem inv_storeSet_append {s2 : PCState} {key : Key} {value : Val}
    (hri : ReplayInv s2 []) (hms : 1 ≤ s2.maxsize) (hes : EntriesSmall s2)
    (hds : DiskSmall s2.disk) (hks : key < pyHashMod)
    (hknot : key ∉ entryKeys s2.entries) :
    Inv { s2 with entries := s2.entries ++ [(key, value)],
                  disk := storeSet s2.disk (hash_key key) (key, value) } := by
  obtain ⟨hft, hop, hndE, hndD, _, hcons, _, hmir⟩ := hri
  refine ⟨hft, hms, ?_, ?_, ?_, ?_, ?_, ?_, ?_⟩
  · intro kv hkv
    rcases List.mem_append.mp hkv with h | h
    · exact hes kv h
    · rw [show kv = (key, value) from by simpa using h]
      exact hks
  · intro e he
    rcases (mem_storeSet_iff hndD).mp he with heq | ⟨h1, _⟩
    · rw [heq]
      exact hks
    · exact hds e h1
  · intro e he
    rcases (mem_storeSet_iff hndD).mp he with heq | ⟨h1, _⟩
    · rw [heq]
    · exact hcons e h1
  · exact storeKeys_storeSet_nodup _ hndD
  · exact entryKeys_append_nodup hndE hknot
  · intro _ hk' k' v'
    dsimp only
    rw [mem_storeSet_iff hndD]
    constructor
    · rintro (heq | ⟨h1, hne⟩)
      · simp only [Prod.mk.injEq] at heq
        obtain ⟨rfl, rfl, rfl⟩ := heq
        exact Or.inl ⟨rfl, List.mem_append_right _ (List.mem_cons_self _ _)⟩
      · rcases (hmir hk' k' v').mp h1 with ⟨rfl, hent⟩ | habs
        · exact Or.inl ⟨rfl, List.mem_append_left _ hent⟩
        · exact absurd habs (List.not_mem_nil _)
    · rintro (⟨rfl, hent⟩ | habs)
      · rcases List.mem_append.mp hent with hent1 | hent1
        · have hrec : (hash_key k', k', v') ∈ s2.disk :=
            (hmir _ k' v').mpr (Or.inl ⟨rfl, hent1⟩)
          have hne : k' ≠ key := by
            rintro rfl
            exact hknot (mem_entryKeys_of_mem hent1)
          right
          refine ⟨hrec, ?_⟩
          show hash_key k' ≠ hash_key key
          exact fun hcol => hne (hash_key_inj (hes _ hent1) hks hcol)
        · have heq : (k', v') = (key, value) := by simpa using hent1
          simp only [Prod.mk.injEq] at heq
          obtain ⟨rfl, rfl⟩ := heq
          exact Or.inl rfl
      · exact absurd habs (List.not_mem_nil _)
  · intro habs
    have h2 : s2.opened = false := habs
    rw [hop] at h2
    exact absurd h2 Bool.noConfusion

theorem inv_storeSet_replace {s2 : PCState} {key : Key} {value : Val}
    (hri : ReplayInv s2 []) (hms : 1 ≤ s2.maxsize) (hes : EntriesSmall s2)
    (hds : DiskSmall s2.disk) (hks : key < pyHashMod)
    (hl : key ∈ entryKeys s2.entries) :
    Inv { s2 with entries := replaceEntry s2.entries key value,
                  disk := storeSet s2.disk (hash_key key) (key, value) } := by
  obtain ⟨hft, hop, hndE, hndD, _, hcons, _, hmir⟩ := hri
  refine ⟨hft, hms, ?_, ?_, ?_, ?_, ?_, ?_, ?_⟩
  · intro kv hkv
    rcases (mem_replaceEntry_iff hndE hl).mp hkv with heq | ⟨h1, _⟩
    · rw [heq]
      exact hks
    · exact hes kv h1
  · intro e he
    rcases (mem_storeSet_iff hndD).mp he with heq | ⟨h1, _⟩
    · rw [heq]
      exact hks
    · exact hds e h1
  · intro e he
    rcases (mem_storeSet_iff hndD).mp he with heq | ⟨h1, _⟩
    · rw [heq]
    · exact hcons e h1
  · exact storeKeys_storeSet_nodup _ hndD
  · show (entryKeys (replaceEntry s2.entries key value)).Nodup
    rw [entryKeys_replaceEntry]
    exact hndE
  · intro _ hk' k' v'
    dsimp only
    rw [mem_storeSet_iff hndD, mem_replaceEntry_iff hndE hl]
    constructor
    · rintro (heq | ⟨h1, hne⟩)
      · simp only [Prod.mk.injEq] at heq
        obtain ⟨rfl, rfl, rfl⟩ := heq
        exact Or.inl ⟨rfl, Or.inl rfl⟩
      · rcases (hmir hk' k' v').mp h1 with ⟨rfl, hent⟩ | habs
        · refine Or.inl ⟨rfl, Or.inr ⟨hent, ?_⟩⟩
          intro hkk
          apply hne
          show hash_key k' = hash_key key
          rw [show k' = key from hkk]
        · exact absurd habs (List.not_mem_nil _)
    · rintro (⟨rfl, heq | ⟨hent, hne⟩⟩ | habs)
      · simp only [Prod.mk.injEq] at heq
        obtain ⟨rfl, rfl⟩ := heq
        exact Or.inl rfl
      · have hrec : (hash_key k', k', v') ∈ s2.disk :=
          (hmir _ k' v').mpr (Or.inl ⟨rfl, hent⟩)
        right
        refine ⟨hrec, ?_⟩
        show hash_key k' ≠ hash_key key
        exact fun hcol => hne (hash_key_inj (hes _ hent) hks hcol)
      · exact absurd habs (List.not_mem_nil _)
  · intro habs
    have h2 : s2.opened = false := habs
    rw [hop] at h2
    exact absurd h2 Bool.noConfusion

theorem pcSetItem_inv {s : PCState} {key : Key} {value : Val} (hinv : Inv s)
    (hks : key < pyHashMod) :
    (pcSetItem s key value).1 = Except.ok () ∧ Inv (pcSetItem s key value).2 := by
  obtain ⟨hok0, hinv1, hop1⟩ := ensureOpened_inv hinv
  unfold pcSetItem
  cases heo : ensureOpened s with
  | mk r0 s1 =>
    rw [heo] at hok0 hinv1 hop1
    dsimp only at hok0 hinv1 hop1
    subst hok0
    dsimp only
    have hms1 : 1 ≤ s1.maxsize := hinv1.2.1
    have hri := replayInv_of_inv hinv1 hop1
    have hes1 : EntriesSmall s1 := hinv1.2.2.1
    have hds1 : DiskSmall s1.disk := hinv1.2.2.2.1
    by_cases hl : (lookupEntry s1.entries key).isSome = true
    · have hw : wrappedSetItem s1 key value =
          (Except.ok (), { s1 with entries := replaceEntry s1.entries key value }) := by
        unfold wrappedSetItem
        rw [if_neg (by omega : ¬ s1.maxsize < 1), if_pos hl]
      rw [hw]
      dsimp only
      rw [if_pos (show ({ s1 with entries := replaceEntry s1.entries key value } :
        PCState).opened = true from hop1)]
      exact ⟨rfl, inv_storeSet_replace hri hms1 hes1 hds1 hks (lookupEntry_isSome.mp hl)⟩
    · have hknot : key ∉ entryKeys s1.entries := by
        intro hcon
        exact hl (lookupEntry_isSome.mpr hcon)
      have hev := evictN_replayInv (s1.entries.length + 1 - s1.maxsize) s1 hri (by omega)
      cases he : evictN s1 (s1.entries.length + 1 - s1.maxsize) with
      | mk r s2 =>
        rw [he] at hev
        obtain ⟨hr, hri2, hent2, hsub2⟩ := hev
        dsimp only at hr hent2 hsub2
        subst hr
        have hw : wrappedSetItem s1 key value =
            (Except.ok (), { s2 with entries := s2.entries ++ [(key, value)] }) := by
          unfold wrappedSetItem
          rw [if_neg (by omega : ¬ s1.maxsize < 1), if_neg hl, he]
        rw [hw]
        dsimp only
        rw [if_pos (show ({ s2 with entries := s2.entries ++ [(key, value)] } :
          PCState).opened = true from hri2.2.1)]
        refine ⟨rfl, ?_⟩
        have hms2 : 1 ≤ s2.maxsize := by
          have hfr := evictN_frame s1 (s1.entries.length + 1 - s1.maxsize)
          rw [he] at hfr
          rw [hfr.1]
          exact hms1
        have hes2 : EntriesSmall s2 := by
          intro kv hkv
          rw [hent2] at hkv
          exact hes1 kv ((List.drop_sublist _ _).mem hkv)
        have hds2 : DiskSmall s2.disk := by
          intro e he2
          exact hds1 e (hsub2 e he2)
        have hknot2 : key ∉ entryKeys s2.entries := by
          intro hcon
          rw [hent2] at hcon
          exact hknot (entryKeys_drop_subset hcon)
        exact inv_storeSet_append hri2 hms2 hes2 hds2 hks hknot2

theorem pcDelItem_inv {s : PCState} {key : Key} (hinv : Inv s) :
    Inv (pcDelItem s key).2 := by
  obtain ⟨hok0, hinv1, hop1⟩ := ensureOpened_inv hinv
  unfold pcDelItem
  cases heo : ensureOpened s with
  | mk r0 s1 =>
    rw [heo] at hok0 hinv1 hop1
    dsimp only at hok0 hinv1 hop1
    subst hok0
    dsimp only
    have hri := replayInv_of_inv hinv1 hop1
    cases hl : lookupEntry s1.entries key with
    | none =>
      have hw : wrappedDelItem s1 key = (Except.error PyErr.keyError, s1) := by
        unfold wrappedDelItem
        rw [hl]
      rw [hw]
      exact hinv1
    | some v =>
      have hdel := wrappedDelItem_replayInv hri hl
      rw [hdel.1]
      apply inv_of_replayInv hdel.2
      · exact hinv1.2.1
      · intro kv hkv
        have hkv2 : kv ∈ removeEntry s1.entries key := hkv
        exact hinv1.2.2.1 kv ((removeEntry_sublist _ _).mem hkv2)
      · intro e he
        have he2 : e ∈ storeDel s1.disk (hash_key key) := he
        exact hinv1.2.2.2.1 e ((storeDel_sublist _ _).mem he2)

theorem pcGetItem_inv {s : PCState} {key : Key} (hinv : Inv s) :
    Inv (pcGetItem s key).2 := by
  obtain ⟨hok0, hinv1, _⟩ := ensureOpened_inv hinv
  unfold pcGetItem
  cases heo : ensureOpened s with
  | mk r0 s1 =>
    rw [heo] at hok0 hinv1
    dsimp only at hok0 hinv1
    subst hok0
    dsimp only
    cases lookupEntry s1.entries key <;> exact hinv1

theorem pcContains_inv {s : PCState} {key : Key} (hinv : Inv s) :
    Inv (pcContains s key).2 := by
  obtain ⟨hok0, hinv1, _⟩ := ensureOpened_inv hinv
  unfold pcContains
  cases heo : ensureOpened s with
  | mk r0 s1 =>
    rw [heo] at hok0 hinv1
    dsimp only at hok0 hinv1
    subst hok0
    exact hinv1

theorem stepPC_inv {s : PCState} {op : Op} (hinv : Inv s) (hks : Op.key op < pyHashMod) :
    Inv (stepPC s op).2 := by
  cases op with
  | set k v =>
    show Inv (pcSetItem s k v).2
    exact (pcSetItem_inv hinv hks).2
  | del k =>
    show Inv (pcDelItem s k).2
    exact pcDelItem_inv hinv
  | get k =>
    show Inv (pcGetItem s k).2
    exact pcGetItem_inv hinv
  | has k =>
    show Inv (pcContains s k).2
    exact pcContains_inv hinv

theorem runPC_inv (ops : List Op) : ∀ s : PCState, Inv s → OpsSmall ops →
    Inv (runPC s ops).2 := by
  induction ops with
  | nil =>
    intro s hinv _
    exact hinv
  | cons op rest ih =>
    intro s hinv hsm
    unfold runPC
    dsimp only
    apply ih
    · exact stepPC_inv hinv (hsm op (List.mem_cons_self _ _))
    · intro o ho
      exact hsm o (List.mem_cons_of_mem _ ho)

/-! ### Claim theorems: the store-mirror invariant -/

/-- C1 (amended): for every sequence of operations on a `PersistentCache`
with persistence enabled and positive capacity, over a wellformed backing
file (duplicate-free store keys, each record keyed by the hash of its
embedded key), and with all keys in play below the hash modulus (so no two
distinct live keys share a Python hash), at every point between operations
once the store is open the set of store keys present in the backing store is
exactly `{hash_key k : k a key of the in-memory cache}`. -/
theorem C1_store_mirrors_memory (fn : Option String) (ms : Nat) (d : Store)
    (ops : List Op) (hfn : filenameTruthy fn = true) (hms : 1 ≤ ms)
    (hnd : (storeKeys d).Nodup)
    (hcons : ∀ e ∈ d, e.1 = hash_key e.2.1 ∧ e.2.1 < pyHashMod)
    (hops : OpsSmall ops) (n : Nat)
    (hopen : (runPC (mkPC fn ms d) (ops.take n)).2.opened = true) :
    StoreMirrors (runPC (mkPC fn ms d) (ops.take n)).2 := by
  have hinv0 : Inv (mkPC fn ms d) := by
    refine ⟨hfn, hms, ?_, ?_, ?_, hnd, ?_, ?_, ?_⟩
    · intro kv hkv
      exact absurd hkv (List.not_mem_nil _)
    · intro e he
      exact (hcons e he).2
    · intro e he
      exact (hcons e he).1
    · show (entryKeys ([] : List (Key × Val))).Nodup
      exact List.nodup_nil
    · intro hop
      exact absurd hop Bool.noConfusion
    · intro _
      rfl
  have hsm : OpsSmall (ops.take n) := by
    intro o ho
    exact hops o ((List.take_sublist n ops).mem ho)
  have hinv := runPC_inv (ops.take n) (mkPC fn ms d) hinv0 hsm
  obtain ⟨_, _, _, _, _, _, _, hmir, _⟩ := hinv
  have hex := hmir hopen
  intro hk
  constructor
  · intro hmem
    unfold storeKeys at hmem
    obtain ⟨e, he, heq⟩ := List.mem_map.mp hmem
    have hm := (hex e.1 e.2.1 e.2.2).mp he
    rcases hm with ⟨hkeq, hent⟩ | habs
    · refine ⟨e.2.1, mem_entryKeys_of_mem hent, ?_⟩
      rw [← hkeq]
      exact heq
    · exact absurd habs (List.not_mem_nil _)
  · rintro ⟨k, hkmem, rfl⟩
    unfold entryKeys at hkmem
    obtain ⟨kv, hkv, hkeq⟩ := List.mem_map.mp hkmem
    have hrec := (hex (hash_key kv.1) kv.1 kv.2).mpr (Or.inl ⟨rfl, hkv⟩)
    rw [← hkeq]
    exact mem_storeKeys hrec

theorem C1_store_mirrors_memory_witness :
    StoreMirrors (runPC (mkPC (some "f") 1 []) ([Op.set 1 10].take 1)).2 :=
  C1_store_mirrors_memory (some "f") 1 [] [Op.set 1 10] rfl (by decide) (by decide)
    (by intro e he; exact absurd he (List.not_mem_nil _))
    (by intro o ho; simp at ho; subst ho; decide) 1 rfl

/-- C1 counterexample: the invariant as claimed fails for keys whose Python
hashes collide.  Keys `1` and `2^61` satisfy `hash(1) = hash(2^61) = 1`, so
after `set(1, 10)`, `set(2^61, 20)` (the second overwrites the first's store
record) and `delete(1)` (the hook deletes that shared record), the store is
open and empty while the in-memory cache still holds `2^61`: the set of
store keys is not `{hash_key k : k in memory}`. -/
theorem C1_counterexample_hash_collision :
    (runPC (mkPC (some "f") 2 []) [Op.set 1 10, Op.set (2 ^ 61) 20, Op.del 1]).2.opened =
      true ∧
    ¬ StoreMirrors (runPC (mkPC (some "f") 2 [])
        [Op.set 1 10, Op.set (2 ^ 61) 20, Op.del 1]).2 := by
  constructor
  · rfl
  · intro h
    have h2 := (h (hash_key (2 ^ 61))).mpr ⟨2 ^ 61, by decide, rfl⟩
    revert h2
    decide

end ShelvedCache
